import Mathlib

/-!
Glyph substitution and positioning of neatroff, file `font.c`.

A shallow embedding of the rule index, the rule matcher and the two-pass
layout routine of `font.c`, followed by theorems about them.

Conventions of the embedding.

* C `int`/`short` values are `Int`; loop counters and array indices that the
  code keeps non-negative are `Nat`.  No arithmetic of `font.c` leaves the
  32-bit range as long as glyph indices stay below 32767, so no wrap-around
  is modelled.  The one narrowing store that is followed is that of a rule
  length, an `int` read from the file, into the `short` field `rule->len`.
* `struct font` is zeroed by `font_open` (`memset`) and its tables only grow.
  Each fixed-capacity table of the struct is a list of its live entries; a
  read just past the live entries yields the zero the `memset` left there.
* `rule->pats` is a heap block of exactly `rule->len` elements and `src`/`dst`
  of `font_layout` are uninitialised stack arrays.  A read outside the
  elements written so far has no defined value: the function returns `none`.
* Loops whose counter is moved inside the body run on a fuel argument; `none`
  is also the answer when the fuel runs out.
-/

namespace Neatroff

/-! ## Data model -/

/-- gsub/gpos pattern glyph -/
def GF_PAT : Nat := 1
/-- gsub replacement glyph -/
def GF_REP : Nat := 2
/-- context glyph -/
def GF_CON : Nat := 4
/-- pattern followed by alternative patterns -/
def GF_ALT : Nat := 8

/-- The macro `GHASH(g1, g2)`: `(((g2) + 1) << 16) | ((g1) + 1)`. -/
def GHASH (g1 g2 : Int) : Int := Int.lor ((g2 + 1) <<< (16 : Int)) (g1 + 1)

/-- The `struct gpat`: glyph pattern for gsub and gpos tables. -/
structure gpat where
  g : Int
  flg : Nat
  x : Int
  y : Int
  xadv : Int
  yadv : Int
deriving DecidableEq, Repr

/-- The `struct grule`; `len` is the length of `pats`. -/
structure grule where
  pats : List gpat
  feat : Nat
  pos : Int
  hash : Int
deriving DecidableEq, Repr

/-- A `struct glyph *` as seen from one font: `NULL`, the address
`fn->glyphs + k` (a glyph of the font when `0 ≤ k < nglyphs`), or the address
of a glyph in the table of another font. -/
inductive gptr where
  | null : gptr
  | glyph (k : Int) : gptr
  | other : gptr
deriving DecidableEq, Repr

/-- One charset slot `i < fn->n`: the entries `c[i]`, `g[i]` and `g_map[i]`. -/
structure cent where
  c : String
  g : gptr
  g_map : gptr
deriving DecidableEq, Repr

/-- One feature slot `i < fn->feat_n`: `feat_name[i]` and `feat_set[i]`. -/
structure fent where
  feat_name : String
  feat_set : Int
deriving DecidableEq, Repr

/-- The parts of `struct font` used by lookup, matching and layout.
`n`, `feat_n`, `gsub_n` and `gpos_n` are the lengths of the four lists. -/
structure font where
  nglyphs : Nat
  chars : List cent
  feats : List fent
  gsub : List grule
  gpos : List grule
deriving DecidableEq, Repr

/-- The value of `fn->feat_set[k]`. -/
def feat_set (fn : font) (k : Nat) : Int :=
  match fn.feats[k]? with
  | some f => f.feat_set
  | none => 0

/-- The value of `rules[k].hash`. -/
def hash_at (rules : List grule) (k : Nat) : Int :=
  match rules[k]? with
  | some r => r.hash
  | none => 0

/-- The value of `rules[k].pos`. -/
def pos_at (rules : List grule) (k : Nat) : Int :=
  match rules[k]? with
  | some r => r.pos
  | none => 0

/-! ## Rule index -/

/-- The function `font_idx`: glyph index in `fn->glyphs[]`, `-1` for `NULL`.
The pointer difference is not defined for a glyph of another font. -/
def font_idx (g : gptr) : Option Int :=
  match g with
  | gptr.null => some (-1)
  | gptr.glyph k => some k
  | gptr.other => none

/-- The comparison `grulecmp`: hashes first, then positions. -/
def grulecmp (r1 r2 : grule) : Int :=
  if r1.hash = r2.hash then r1.pos - r2.pos else r1.hash - r2.hash

/-- The step `g = i < len && pats[i].flg == GF_PAT ? pats[i++].g : -1` of
`grule_hash`, on the elements from `i` on. -/
def hash_glyph (rest : List gpat) : Int × List gpat :=
  match rest with
  | [] => (-1, [])
  | p :: t => if p.flg = GF_PAT then (p.g, t) else (-1, p :: t)

/-- The function `grule_hash`: the hash of a rule, from its first two glyphs. -/
def grule_hash (rule : grule) : Int :=
  let r1 := hash_glyph (rule.pats.dropWhile (fun p => p.flg = GF_REP))
  let r2 := hash_glyph (r1.2.dropWhile (fun p => p.flg = GF_REP))
  GHASH r1.1 (if r1.1 < 0 then -1 else r2.1)

/-- The `while (l < h)` loop of `grule_find`; it returns the final `l`. -/
def grule_find_loop (rules : List grule) (hash : Int) : Nat → Nat → Nat → Nat
  | 0, l, _ => l
  | fuel + 1, l, h =>
    if l < h then
      if hash_at rules ((l + h) / 2) ≥ hash then
        grule_find_loop rules hash fuel l ((l + h) / 2)
      else
        grule_find_loop rules hash fuel ((l + h) / 2 + 1) h
    else l

/-- The function `grule_find` on the `n = rules.length` rules of a table.
The interval `h - l` shrinks in every round, so `n` rounds are enough. -/
def grule_find (rules : List grule) (hash : Int) : Int :=
  let l := grule_find_loop rules hash rules.length 0 rules.length
  if hash_at rules l = hash then (l : Int) else -1

/-! ## Rule matcher -/

/-- The loop `while (pats[j].flg & GF_ALT) j++` entered at index `j`, on the
elements from `j` on; `none` when it runs off the end of `pats`. -/
def skip_alt_from : List gpat → Nat → Option Nat
  | [], _ => none
  | p :: rest, j => if p.flg &&& GF_ALT ≠ 0 then skip_alt_from rest (j + 1) else some j

/-- The loop `while (pats[j].flg & GF_ALT) j++`; it returns the final `j`. -/
def skip_alt (pats : List gpat) (j : Nat) : Option Nat :=
  skip_alt_from (pats.drop j) j

/-- The leading elements with `flg & GF_CON`, scanned by the first loop of
`font_rulematches`. -/
def con_run (pats : List gpat) : List gpat :=
  pats.takeWhile (fun p => p.flg &&& GF_CON ≠ 0)

/-- The number of initial context glyphs `ncon`. -/
def ncon_of (pats : List gpat) : Nat :=
  (con_run pats).countP (fun p => p.flg = GF_CON)

/-- The loop "matching the base pattern" of `font_rulematches`, from index `j`
with `sidx` glyphs of `src` matched, and the test `j != rule->len` after it. -/
def match_base (pats : List gpat) (src : List Int) : Nat → Nat → Nat → Option Bool
  | 0, _, _ => none
  | fuel + 1, j, sidx =>
    match pats[j]? with
    | none => some (decide (j = pats.length))
    | some p =>
      if p.flg &&& GF_REP ≠ 0 then match_base pats src fuel (j + 1) sidx
      else if src[sidx]? = some p.g then
        match skip_alt pats j with
        | none => none
        | some j1 => match_base pats src fuel (j1 + 1) (sidx + 1)
      else if p.flg &&& GF_ALT = 0 then some false
      else match_base pats src fuel (j + 1) sidx

/-- The loop "matching the initial context" of `font_rulematches`.  `dst` holds
the `dlen` glyphs before the pointer the code receives, so `dst[didx - ncon]`
of the code is element `dlen - ncon + didx` of the list when `didx < ncon`,
and lies at or after the pointer otherwise. -/
def match_ctx (pats : List gpat) (dst : List Int) (ncon : Nat) : Nat → Nat → Nat → Option Bool
  | 0, _, _ => none
  | fuel + 1, j, didx =>
    match pats[j]? with
    | none => some true
    | some p =>
      if p.flg &&& GF_CON = 0 then some true
      else if didx < ncon then
        match dst[dst.length - ncon + didx]? with
        | none => none
        | some d =>
          if p.g = d then
            match skip_alt pats j with
            | none => none
            | some j1 => match_ctx pats dst ncon fuel (j1 + 1) (didx + 1)
          else if p.flg &&& GF_ALT = 0 then some false
          else match_ctx pats dst ncon fuel (j + 1) didx
      else none

/-- The function `font_rulematches` for the slice `src` (of `slen` glyphs) and
the `dlen` glyphs `dst` that precede the match point.  Both loops move `j`
forward in every round, so `len + 1` rounds are enough. -/
def font_rulematches (fn : font) (rule : grule) (src dst : List Int) : Option Bool :=
  if feat_set fn rule.feat = 0 then some false
  else if dst.length < ncon_of rule.pats then some false
  else
    match match_base rule.pats src (rule.pats.length + 1) (con_run rule.pats).length 0 with
    | none => none
    | some false => some false
    | some true => match_ctx rule.pats dst (ncon_of rule.pats) (rule.pats.length + 1) 0 0

/-- The test `idx[j] >= 0 && idx[j] < n && hash[j] == rules[idx[j]].hash`. -/
def cursor_ok (rules : List grule) (hash : Int) (k : Int) : Bool :=
  decide (0 ≤ k) && decide (k < rules.length) && decide (hash = hash_at rules k.toNat)

/-- One round `j` of the loop "finding the first position" of `font_findrule`;
`i` is the cursor chosen so far, `-1` when none. -/
def pick (rules : List grule) (hash idx : List Int) (i : Int) (j : Nat) : Int :=
  if cursor_ok rules (hash.getD j 0) (idx.getD j (-1)) &&
      (decide (i < 0) ||
        decide (pos_at rules (idx.getD i.toNat (-1)).toNat
          < pos_at rules (idx.getD j (-1)).toNat)) then (j : Int)
  else i

/-- The loop "finding the first position" over the three cursors. -/
def first_pos (rules : List grule) (hash idx : List Int) : Int :=
  pick rules hash idx (pick rules hash idx (pick rules hash idx (-1) 0) 1) 2

/-- The `while (1)` loop of `font_findrule`.  The outer `none` means no defined
result, `some none` is the return value `NULL`. -/
def font_findrule_loop (fn : font) (rules : List grule) (hash : List Int)
    (src dst : List Int) : Nat → List Int → Option (Option grule)
  | 0, _ => none
  | fuel + 1, idx =>
    if first_pos rules hash idx < 0 then some none
    else
      match rules[(idx.getD (first_pos rules hash idx).toNat (-1)).toNat]? with
      | none => none
      | some r =>
        match font_rulematches fn r src dst with
        | none => none
        | some true => some (some r)
        | some false =>
          font_findrule_loop fn rules hash src dst fuel
            (idx.set (first_pos rules hash idx).toNat
              (idx.getD (first_pos rules hash idx).toNat (-1) + 1))

/-- The three keys `hash[]` of `font_findrule`.  `src[0]` and `src[1]` are read
whatever `slen` is; a key built from a glyph beyond `slen` is never compared,
because its cursor stays `-1`. -/
def probe_hashes (src : List Int) : List Int :=
  [GHASH (-1) (-1), GHASH (src.getD 0 0) (-1), GHASH (src.getD 0 0) (src.getD 1 0)]

/-- The cursors `idx[]` after the loop
`for (j = 0; j < LEN(hash) && j <= slen; j++) idx[j] = grule_find(...)`. -/
def probe_cursors (rules : List grule) (src : List Int) : List Int :=
  [grule_find rules ((probe_hashes src).getD 0 0),
   if 1 ≤ src.length then grule_find rules ((probe_hashes src).getD 1 0) else -1,
   if 2 ≤ src.length then grule_find rules ((probe_hashes src).getD 2 0) else -1]

/-- The function `font_findrule` on a table of `n = rules.length` rules.  Every
round that does not return moves one cursor forward and a cursor stops at `n`,
so `3 * n + 1` rounds are enough. -/
def font_findrule (fn : font) (rules : List grule) (src dst : List Int) :
    Option (Option grule) :=
  font_findrule_loop fn rules (probe_hashes src) src dst (3 * rules.length + 1)
    (probe_cursors rules src)

/-! ## Layout -/

/-- A cell of an array the caller passes in: `some v` once the code has stored
`v` there, `none` while the code has not written it. -/
abbrev cells := List (Option Int)

/-- The store `a[k] = v` into an array of cells. -/
def poke (a : cells) (k : Nat) (v : Int) : cells :=
  if k < a.length then a.set k (some v)
  else a ++ List.replicate (k - a.length) none ++ [some v]

/-- The body `if (flg == GF_REP) dst[ndst++] = g; if (flg == GF_PAT) i++;` for
one element of a matched substitution rule. -/
def apply_pat (st : Nat × List Int) (p : gpat) : Nat × List Int :=
  (if p.flg = GF_PAT then st.1 + 1 else st.1,
   if p.flg = GF_REP then st.2 ++ [p.g] else st.2)

/-- The loop `for (j = 0; j < rule->len; j++)` over a matched substitution
rule, from cursor `i` and output `dst`. -/
def apply_rule (pats : List gpat) (i : Nat) (dst : List Int) : Nat × List Int :=
  pats.foldl apply_pat (i, dst)

/-- The substitution loop of `font_layout` from cursor `i`, with the output
`dst` (of `ndst` glyphs) and the cells of `dmap` written so far.  After a rule
the code runs `i--` and the loop header `i++`, which cancel. -/
def subst_loop (fn : font) (src : List Int) (fuel i : Nat) (dst : List Int) (dmap : cells) :
    Option (List Int × cells) :=
  if src.length ≤ i then some (dst, dmap)
  else
    match fuel with
    | 0 => none
    | fuel1 + 1 =>
      match font_findrule fn fn.gsub (src.drop i) dst with
      | none => none
      | some (some rule) =>
        subst_loop fn src fuel1 (apply_rule rule.pats i dst).1
          (apply_rule rule.pats i dst).2 (poke dmap dst.length i)
      | some none =>
        subst_loop fn src fuel1 (i + 1) (dst ++ [src.getD i 0]) (poke dmap dst.length i)

/-- The variables the positioning pass updates: `didx` and the four arrays. -/
structure posst where
  didx : Nat
  x : cells
  y : cells
  xadv : cells
  yadv : cells
deriving DecidableEq, Repr

/-- The loop `for (j = 0; j < rule->len; j++)` over a matched positioning rule
at output position `i`.  `dst[didx]` is read from the start of the output. -/
def pos_rule (pats : List gpat) (dst : List Int) (i : Nat) : Nat → Nat → posst → Option posst
  | 0, _, _ => none
  | fuel + 1, j, st =>
    match pats[j]? with
    | none => some st
    | some p =>
      match dst[st.didx]? with
      | none => none
      | some d =>
        if p.g = d then
          match skip_alt pats j with
          | none => none
          | some j1 =>
            pos_rule pats dst i fuel (j1 + 1)
              (posst.mk (st.didx + 1) (poke st.x (i + st.didx) p.x)
                (poke st.y (i + st.didx) p.y) (poke st.xadv (i + st.didx) p.xadv)
                (poke st.yadv (i + st.didx) p.yadv))
        else pos_rule pats dst i fuel (j + 1) st

/-- The positioning loop `for (i = 0; i < ndst; i++)` of `font_layout`, with
`k` rounds left, so that the current position is `i = ndst - k`. -/
def pos_loop (fn : font) (dst : List Int) : Nat → posst → Option posst
  | 0, st => some st
  | k + 1, st =>
    match font_findrule fn fn.gpos (dst.drop (dst.length - (k + 1)))
        (dst.take (dst.length - (k + 1))) with
    | none => none
    | some none => pos_loop fn dst k st
    | some (some rule) =>
      match pos_rule rule.pats dst (dst.length - (k + 1)) (rule.pats.length + 1) 0 st with
      | none => none
      | some st1 => pos_loop fn dst k st1

/-- What `font_layout` hands back: the return value `ndst`, the glyphs stored
in `gdst[0..ndst)` and the cells of `dmap`, `x`, `y`, `xadv` and `yadv`. -/
structure layout where
  ndst : Nat
  gdst : List gptr
  dmap : cells
  x : cells
  y : cells
  xadv : cells
  yadv : cells
deriving DecidableEq, Repr

/-- The function `font_layout` on the run `gsrc` (of `nsrc` glyphs), with `fuel`
rounds for the substitution loop.  The parameter `sz` is not used by the code. -/
def font_layout (fuel : Nat) (fn : font) (gsrc : List gptr) : Option layout :=
  match gsrc.mapM font_idx with
  | none => none
  | some src =>
    match subst_loop fn src fuel 0 [] [] with
    | none => none
    | some (dst, dmap) =>
      match pos_loop fn dst dst.length
          (posst.mk 0 (List.replicate dst.length (some 0)) (List.replicate dst.length (some 0))
            (List.replicate dst.length (some 0)) (List.replicate dst.length (some 0))) with
      | none => none
      | some st =>
        some (layout.mk dst.length (dst.map gptr.glyph) dmap st.x st.y st.xadv st.yadv)

/-! ## Character names and features -/

/-- The scan `for (i = 0; i < n; i++) if (!strcmp(name, names[i])) return i;`
over an array of names, on the slots from `i` on; `none` when the loop ends
without a hit. -/
def name_scan : List String → String → Nat → Option Nat
  | [], _, _ => none
  | s :: rest, name, i => if name = s then some i else name_scan rest name (i + 1)

/-- Modelled from the spec: `dict_get` on `fn->cdict`, whose code (`dict.c`) is
not part of `font.c`.  The dictionary is an external key-to-index map with
unique keys, and `font.c` keeps it as the mapping from `c[i]` to `i` with `-1`
for a missing key; it is the index of `name` among the names `c[0..n)`. -/
def dict_get (keys : List String) (name : String) : Int :=
  match name_scan keys name 0 with
  | some i => (i : Int)
  | none => -1

/-- The names `c[0..n)` of the charset, the keys of `fn->cdict`. -/
def cdict (fn : font) : List String := fn.chars.map cent.c

/-- The function `font_find`: find a glyph by its name. -/
def font_find (fn : font) (name : String) : gptr :=
  if dict_get (cdict fn) name < 0 then gptr.null
  else
    match fn.chars[(dict_get (cdict fn) name).toNat]? with
    | none => gptr.null
    | some e => if e.g_map ≠ gptr.null then e.g_map else e.g

/-- The test `g->font == fn` for a glyph pointer that is not `NULL`:
`font_glyphput` sets the `font` field of the glyphs `0..nglyphs)` of the table,
the unused slots of `glyphs[]` keep the zero of the `memset`. -/
def owned (fn : font) (g : gptr) : Bool :=
  match g with
  | gptr.glyph k => decide (0 ≤ k) && decide (k < fn.nglyphs)
  | _ => false

/-- The function `font_map`: map character name to the given glyph.  It returns
the C return value and the font after the call.  A new name takes slot `n`,
whose `g[n]` is still zero, and `dict_put` enters it under index `n`. -/
def font_map (NGLYPHS : Nat) (fn : font) (name : String) (g : gptr) : Int × font :=
  if g ≠ gptr.null ∧ owned fn g = false then (1, fn)
  else if dict_get (cdict fn) name < 0 then
    if fn.chars.length ≥ NGLYPHS then (1, fn)
    else (0, font.mk fn.nglyphs (fn.chars ++ [cent.mk name gptr.null g]) fn.feats fn.gsub fn.gpos)
  else
    (0, font.mk fn.nglyphs
      (fn.chars.modify (fun e => cent.mk e.c e.g g) (dict_get (cdict fn) name).toNat)
      fn.feats fn.gsub fn.gpos)

/-- The function `font_mapped`: nonzero if the name has been mapped with
`font_map`. -/
def font_mapped (fn : font) (name : String) : Int :=
  if dict_get (cdict fn) name < 0 then 0
  else
    match fn.chars[(dict_get (cdict fn) name).toNat]? with
    | none => 0
    | some e => if e.g_map ≠ gptr.null then 1 else 0

/-- The function `font_findfeat`: the index of a feature, found by a scan of
`feat_name[0..feat_n)`, and the font after the call; with `mk` set a missing
feature is appended, its flag still zero.  A slot of `feat_name` has 8 bytes:
the `strcpy` of the code stays inside the slot for names of at most 7 bytes,
and the list keeps a longer name whole, where the code writes past the slot. -/
def font_findfeat (fn : font) (feat : String) (mk : Bool) : Int × font :=
  match name_scan (fn.feats.map fent.feat_name) feat 0 with
  | some i => ((i : Int), fn)
  | none =>
    if mk then
      ((fn.feats.length : Int),
        font.mk fn.nglyphs fn.chars (fn.feats ++ [fent.mk feat 0]) fn.gsub fn.gpos)
    else (-1, fn)

/-- The function `font_feat`: enable/disable font features; it returns the
previous value and the font after the call. -/
def font_feat (fn : font) (name : String) (val : Int) : Int × font :=
  if (font_findfeat fn name false).1 ≥ 0 then
    (feat_set fn (font_findfeat fn name false).1.toNat,
      font.mk fn.nglyphs fn.chars
        (fn.feats.modify (fun f => fent.mk f.feat_name val) (font_findfeat fn name false).1.toNat)
        fn.gsub fn.gpos)
  else (0, fn)

/-! ## Elements as the loader writes them -/

/-- The element stored for a token `-g`: a pattern glyph. -/
def pat_elem (g : Int) : gpat := gpat.mk g GF_PAT 0 0 0 0

/-- The element stored for a token `+g`: a replacement glyph. -/
def rep_elem (g : Int) : gpat := gpat.mk g GF_REP 0 0 0 0

/-- Cursor `j` of `font_findrule` passes the test of the selection loop. -/
def cur_ok (rules : List grule) (hash idx : List Int) (j : Nat) : Bool :=
  cursor_ok rules (hash.getD j 0) (idx.getD j (-1))

/-! ## Notions used in the statements and proofs -/

/-- Index `k` is a glyph of the font: `0 ≤ k < nglyphs`. -/
@[reducible] def glyph_idx (fn : font) (k : Int) : Prop := 0 ≤ k ∧ k < fn.nglyphs

/-- The order `qsort` with `grulecmp` leaves a table in. -/
@[reducible] def table_sorted (rules : List grule) : Prop :=
  rules.Pairwise (fun a b => grulecmp a b ≤ 0)

/-- The rules of a bucket that lie before its cursor have been rejected. -/
def tried (fn : font) (rules : List grule) (hash : List Int) (src dst : List Int)
    (idx : List Int) : Prop :=
  ∀ (j q : Nat) (r : grule), rules[q]? = some r → (q : Int) < idx.getD j (-1) →
    r.hash = hash.getD j 0 → font_rulematches fn r src dst = some false

/-- Rounds a cursor at `k` can still be chosen in a table of `n` rules. -/
def cur_left (n : Nat) (k : Int) : Nat := if 0 ≤ k then (n - k).toNat else 0

/-- Rounds left for the three cursors together. -/
def rounds_left (n : Nat) (idx : List Int) : Nat :=
  cur_left n (idx.getD 0 (-1)) + cur_left n (idx.getD 1 (-1)) + cur_left n (idx.getD 2 (-1))

/-- The font after `font_map` has stored `g` in `g_map[i]` of a known name. -/
def remapped (fn : font) (i : Nat) (g : gptr) : font :=
  font.mk fn.nglyphs (fn.chars.modify (fun e => cent.mk e.c e.g g) i) fn.feats fn.gsub fn.gpos

/-- The cells of `dmap` with `dmap[i] = i` for `i < n`. -/
def id_dmap (n : Nat) : cells := (List.range n).map (fun (i : Nat) => some (Int.ofNat i))

/-- The layout that hands a run back unchanged: glyph for glyph, `dmap[i] = i`
and all offsets and advances zero. -/
def identity_layout (ks : List Int) : layout :=
  layout.mk ks.length (ks.map gptr.glyph) (id_dmap ks.length)
    (List.replicate ks.length (some 0)) (List.replicate ks.length (some 0))
    (List.replicate ks.length (some 0)) (List.replicate ks.length (some 0))

/-- Every feature of the font is disabled. -/
@[reducible] def all_disabled (fn : font) : Prop := ∀ f, f ∈ fn.feats → f.feat_set = 0

/-- A piece of a rule without context: one replacement element, or one slot,
which is a run of alternatives linked by `GF_ALT` and the element closing it. -/
inductive seg where
  | rep (p : gpat) : seg
  | slot (alts : List gpat) (last : gpat) : seg

/-- The elements of a piece, in rule order. -/
def seg.elems : seg → List gpat
  | seg.rep p => [p]
  | seg.slot alts last => alts ++ [last]

/-- The flags `font_readgsub` gives the elements of a piece: a replacement is
`GF_REP`, with `GF_ALT` when an alternative follows it; the alternatives of a
slot are `GF_PAT | GF_ALT` and the closing element is `GF_PAT`. -/
def seg_ok : seg → Prop
  | seg.rep p => p.flg = GF_REP ∨ p.flg = GF_REP ||| GF_ALT
  | seg.slot alts last => (∀ a, a ∈ alts → a.flg = GF_PAT ||| GF_ALT) ∧ last.flg = GF_PAT

/-- The elements of a rule made of the given pieces. -/
def flat : List seg → List gpat
  | [] => []
  | s :: t => s.elems ++ flat t

/-- The slots of a rule: for each slot the glyphs of its alternatives. -/
def slot_glyphs : List seg → List (List Int)
  | [] => []
  | seg.rep _ :: t => slot_glyphs t
  | seg.slot alts last :: t => (alts ++ [last]).map gpat.g :: slot_glyphs t

/-- The match of a slice against slots in the words of the spec: the slice
has a glyph for every slot and glyph `k` is among the alternatives of slot `k`. -/
def slots_accept : List (List Int) → List Int → Bool
  | [], _ => true
  | _ :: _, [] => false
  | s :: rest, g :: src => decide (g ∈ s) && slots_accept rest src

/-- The font with every rule owned by feature `k` taken out of both tables. -/
def without_feat (fn : font) (k : Nat) : font :=
  font.mk fn.nglyphs fn.chars fn.feats (fn.gsub.filter (fun r => decide (r.feat ≠ k)))
    (fn.gpos.filter (fun r => decide (r.feat ≠ k)))

/-! ## Concrete fonts -/

/-- The ligature rule `-g0 -g1 +g2` with the hash `font_open` computes for it. -/
def lig_rule : grule := grule.mk [pat_elem 0, pat_elem 1, rep_elem 2] 0 0 131073

/-- A font of three glyphs whose only rule is `lig_rule`, feature enabled. -/
def lig_font : font := font.mk 3 [] [fent.mk "liga" 1] [lig_rule] []

/-- The kerning rule `font_readkern` stores for `kern A B d`, here for the
glyphs 0 and 1 and `d = 5`, with the hash `font_open` computes for it. -/
def kern_rule : grule :=
  grule.mk [gpat.mk 0 GF_PAT 0 0 5 0, gpat.mk 1 GF_PAT 0 0 0 0] 0 0 131073

/-- A font of three glyphs whose only rule is `kern_rule`, feature enabled. -/
def kern_font : font := font.mk 3 [] [fent.mk "kern" 1] [] [kern_rule]

/-- The font `kern_font` with its feature disabled. -/
def kern_off_font : font := font.mk 3 [] [fent.mk "kern" 0] [] [kern_rule]

/-- A substitution rule `-g0 +g2` declared first (position 0). -/
def early_rule : grule := grule.mk [pat_elem 0, rep_elem 2] 0 0 1

/-- A substitution rule `-g0 -g1 +g3` declared second (position 1). -/
def late_rule : grule := grule.mk [pat_elem 0, pat_elem 1, rep_elem 3] 0 1 131073

/-- A font of four glyphs with the two rules above, sorted by `(hash, pos)`,
their feature enabled. -/
def prio_font : font := font.mk 4 [] [fent.mk "liga" 1] [early_rule, late_rule] []

/-- A font of eight glyphs with features `ss01` (index 0) and `liga` (index 1),
both enabled, and three substitution rules sorted by `(hash, pos)`:
`-g0 +g5` of `ss01` (position 0), `-g0 +g6` of `liga` (position 2) and
`-g0 -g1 +g7` of `liga` (position 1). -/
def gate_font : font :=
  font.mk 8 [] [fent.mk "ss01" 1, fent.mk "liga" 1]
    [grule.mk [pat_elem 0, rep_elem 5] 0 0 1, grule.mk [pat_elem 0, rep_elem 6] 1 2 1,
      grule.mk [pat_elem 0, pat_elem 1, rep_elem 7] 1 1 131073] []

/-- A rule with the single slot `g1|g2|g3`. -/
def alt_rule : grule :=
  grule.mk [gpat.mk 1 (GF_PAT ||| GF_ALT) 0 0 0 0, gpat.mk 2 (GF_PAT ||| GF_ALT) 0 0 0 0,
    gpat.mk 3 GF_PAT 0 0 0 0] 0 0 0

/-- A font of two glyphs with the charset names `a` and `b`. -/
def map_font : font :=
  font.mk 2 [cent.mk "a" (gptr.glyph 0) gptr.null, cent.mk "b" (gptr.glyph 1) gptr.null] [] [] []

/-! ## Rule registration -/

/-- The function `font_gpat`: a block of `len` zeroed elements. -/
def font_gpat (len : Nat) : List gpat := List.replicate len (gpat.mk 0 0 0 0 0 0)

/-- The value the field `short len` of `struct grule` holds after the
assignment `rule->len = len` of an `int`: the value itself when it lies in
`-32768 .. 32767`, and the value reduced modulo `65536` into that range
otherwise, as the compilers in use convert. -/
def rule_len (len : Int) : Int := (len + 32768) % 65536 - 32768

/-- The function `font_gsub`: register a substitution rule of `len` elements for
feature `feat`, where `len` is the `int` the caller read from the file.  It
gives the slot of the new rule (`none` for `NULL`) and the font after the call.
`NGRULES` is `LEN(fn->gsub)`; `pos` and `hash` of the new slot keep the zero of
the `memset`.  `font_gpat` runs first: for a negative `len` the size handed to
`xmalloc` is not the size of any block, and there is no result (outer `none`);
otherwise `xmalloc` is taken to succeed.  On a table with room the code stores
`len` in the `short` field `rule->len`.  A rule of this embedding has as many
elements as `rule->len` says, so when `rule_len len` is not `len` the rule the
code leaves is none of the embedding and there is no result either. -/
def font_gsub (NGRULES : Nat) (fn : font) (feat : String) (len : Int) :
    Option (Option Nat × font) :=
  if len < 0 then none
  else if fn.gsub.length ≥ NGRULES then some (none, fn)
  else if rule_len len ≠ len then none
  else
    some (some fn.gsub.length,
      font.mk fn.nglyphs fn.chars (font_findfeat fn feat true).2.feats
        (fn.gsub ++ [grule.mk (font_gpat len.toNat) (font_findfeat fn feat true).1.toNat 0 0])
        fn.gpos)

/-- The function `font_gpos`: register a positioning rule of `len` elements for
feature `feat`, as `font_gsub` does for the substitution table. -/
def font_gpos (NGRULES : Nat) (fn : font) (feat : String) (len : Int) :
    Option (Option Nat × font) :=
  if len < 0 then none
  else if fn.gpos.length ≥ NGRULES then some (none, fn)
  else if rule_len len ≠ len then none
  else
    some (some fn.gpos.length,
      font.mk fn.nglyphs fn.chars (font_findfeat fn feat true).2.feats fn.gsub
        (fn.gpos ++ [grule.mk (font_gpat len.toNat) (font_findfeat fn feat true).1.toNat 0 0]))

/-- The font right after `memset(fn, 0, sizeof(*fn))`. -/
def empty_font : font := font.mk 0 [] [] [] []

/-- Rules of no elements registered with `font_gsub`, one for each feature name
of the list, in order.  A call with length 0 always has a result. -/
def register_feats (NGRULES : Nat) (fn : font) : List String → font
  | [] => fn
  | name :: rest =>
    match font_gsub NGRULES fn name 0 with
    | some res => register_feats NGRULES res.2 rest
    | none => fn

/-! ## The build step of `font_open` -/

/-- The loops `gsub[i].pos = i` and `gsub[i].hash = grule_hash(&gsub[i])` of
`font_open`, on the rules from slot `i` on. -/
def stamp_from : Nat → List grule → List grule
  | _, [] => []
  | i, r :: t => grule.mk r.pats r.feat (Int.ofNat i) (grule_hash r) :: stamp_from (i + 1) t

/-- The build step of `font_open` for one table: positions, hashes, then
`qsort(..., grulecmp)`.  The C library function is a parameter. -/
def build_table (qsort : List grule → List grule) (rules : List grule) : List grule :=
  qsort (stamp_from 0 rules)

/-- The order of `grulecmp`: `r1` does not come after `r2`. -/
@[reducible] def grule_le (r1 r2 : grule) : Prop := grulecmp r1 r2 ≤ 0

/-- A sort by `grulecmp` that can stand for `qsort`: insertion sort. -/
def isort (rules : List grule) : List grule := List.insertionSort grule_le rules

/-! ## Keys of the hash index -/

/-- The keys `font_findrule` looks up for a slice: key `j` is used when
`j ≤ slen`. -/
def probed (src : List Int) (h : Int) : Prop :=
  ∃ j, j < 3 ∧ j ≤ src.length ∧ h = (probe_hashes src).getD j 0


/-! ## A rule without pattern elements -/

/-- The insertion rule `+g1`, stored for the specification `gsub ins 1 +g1`,
with the hash `font_open` computes for it. -/
def ins_rule : grule := grule.mk [rep_elem 1] 0 0 0

/-- A font of two glyphs whose only rule is `ins_rule`, feature enabled. -/
def ins_font : font := font.mk 2 [] [fent.mk "ins" 1] [ins_rule] []

/-! ## Input consumed by a rule -/

/-- The loop "matching the base pattern" of `font_rulematches` together with
the value `sidx` has when the loop is left: the number of glyphs of `src` the
matcher has consumed. -/
def match_base_sidx (pats : List gpat) (src : List Int) : Nat → Nat → Nat → Option (Bool × Nat)
  | 0, _, _ => none
  | fuel + 1, j, sidx =>
    match pats[j]? with
    | none => some (decide (j = pats.length), sidx)
    | some p =>
      if p.flg &&& GF_REP ≠ 0 then match_base_sidx pats src fuel (j + 1) sidx
      else if src[sidx]? = some p.g then
        match skip_alt pats j with
        | none => none
        | some j1 => match_base_sidx pats src fuel (j1 + 1) (sidx + 1)
      else if p.flg &&& GF_ALT = 0 then some (false, sidx)
      else match_base_sidx pats src fuel (j + 1) sidx

/-- The value of `sidx` at the end of the base loop of `font_rulematches` on
the slice `src`: the number of input glyphs the matcher consumed. -/
def consumed (rule : grule) (src : List Int) : Option Nat :=
  (match_base_sidx rule.pats src (rule.pats.length + 1) (con_run rule.pats).length 0).map
    Prod.snd

/-- The number of elements of a rule whose flag is exactly `GF_PAT`: the amount
by which the substitution loop of `font_layout` moves its cursor for the rule. -/
def npat (rule : grule) : Nat := rule.pats.countP (fun p => decide (p.flg = GF_PAT))

/-! ## Reading a substitution rule -/

/-- The function `font_glyph`: find a glyph by its device-dependent identifier.
The list `gdict` holds the ids of `glyphs[0..nglyphs)` in table order: they are
the keys of `fn->gdict`, which `font_glyphput` enters under the index of
the glyph. -/
def font_glyph (gdict : List String) (id : String) : gptr :=
  if dict_get gdict id ≥ 0 then gptr.glyph (dict_get gdict id) else gptr.null

/-- The flag of element `i` after the three tests of the marker `tok[0]`
against `-`, `=` and `+`; another marker leaves the flag as it was. -/
def marker_flg (c : Char) (old : Nat) : Nat :=
  if c = '+' then GF_REP
  else if c = '=' then GF_CON
  else if c = '-' then GF_PAT
  else old

/-- The stores of one round of the loop of `font_readgsub` for the token with
marker `c` that names glyph `k`: `pats[i].g`, `pats[i].flg`, and for the
marker `|` with `i > 0` the flag of element `i - 1` copied to element `i` and
`GF_ALT` set in element `i - 1`. -/
def store_elem (pats : List gpat) (i : Nat) (k : Int) (c : Char) : List gpat :=
  if 0 < i ∧ c = '|' then
    ((pats.modify (fun p => gpat.mk k
        (match pats[i - 1]? with
          | some q => q.flg
          | none => 0) p.x p.y p.xadv p.yadv) i).modify
      (fun q => gpat.mk q.g (q.flg ||| GF_ALT) q.x q.y q.xadv q.yadv) (i - 1))
  else pats.modify (fun p => gpat.mk k (marker_flg c p.flg) p.x p.y p.xadv p.yadv) i

/-- The loop `for (i = 0; i < n; i++)` of `font_readgsub` from element `i`, on
the tokens left in the file and the elements of the registered rule.  It gives
the return value and the elements as the loop leaves them: 1 when the file ends
early, 0 when a token is empty or names no glyph of the font, 0 at the end.
The marker is the byte `tok[0]` and the id is `tok + 1`.  For a token whose
first character `c` is a single byte these are `c` and the rest of the token.
When the first character takes more than one byte, `tok + 1` starts inside
that character: it is the id of no glyph, the ids being whole strings, and the
code returns 0. -/
def read_pats (gdict : List String) (n : Nat) : List String → Nat → List gpat → Int × List gpat
  | [], i, pats => if n ≤ i then (0, pats) else (1, pats)
  | tok :: rest, i, pats =>
    if n ≤ i then (0, pats)
    else
      match tok.data with
      | [] => (0, pats)
      | c :: id =>
        if 128 ≤ c.toNat then (0, pats)
        else
          match font_glyph gdict (String.mk id) with
          | gptr.glyph k => read_pats gdict n rest (i + 1) (store_elem pats i k c)
          | _ => (0, pats)

/-- The function `font_readgsub` after its first `fscanf` has read the feature
name `feat` and the count `n`, an `int`; `toks` are the tokens that follow in
the file.  The rule is registered by `font_gsub` before its tokens are read,
and the loop writes through the pointer to the registered rule.  It gives the
return value and the font after the call, and no result where `font_gsub` has
none. -/
def font_readgsub (gdict : List String) (NGRULES : Nat) (fn : font) (feat : String) (n : Int)
    (toks : List String) : Option (Int × font) :=
  match font_gsub NGRULES fn feat n with
  | none => none
  | some (none, fn1) => some (0, fn1)
  | some (some k, fn1) =>
    match fn1.gsub[k]? with
    | none => none
    | some r =>
      some ((read_pats gdict n.toNat toks 0 r.pats).1,
        font.mk fn1.nglyphs fn1.chars fn1.feats
          (fn1.gsub.set k
            (grule.mk (read_pats gdict n.toNat toks 0 r.pats).2 r.feat r.pos r.hash))
          fn1.gpos)

/-- The ids of the two glyphs of a font: glyph 0 is `a`, glyph 1 is `b`. -/
def ab_gdict : List String := ["a", "b"]

/-- A font of two glyphs without features and rules. -/
def ab_font : font := font.mk 2 [] [] [] []

/-- The return value and the font `ab_font` after `font_readgsub` has read the
specification `gsub liga 2 -a +zzz`, whose second token names no glyph of the
font.  The call has a result; the pair given for a call without one has the
return value 1. -/
def bad_read : Int × font :=
  match font_readgsub ab_gdict 4 ab_font "liga" 2 ["-a", "+zzz"] with
  | some res => res
  | none => (1, ab_font)

/-- The font a later `font_layout` works on: `bad_read` after the build step of
`font_open` has stamped and sorted the substitution table and `font_feat` has
enabled `liga`. -/
def bad_font : font :=
  (font_feat (font.mk bad_read.2.nglyphs bad_read.2.chars bad_read.2.feats
    (build_table isort bad_read.2.gsub) bad_read.2.gpos) "liga" 1).2

/-! # Theorems -/

/-! ## The cursor selection of `font_findrule` -/

theorem pick_eq (rules : List grule) (hash idx : List Int) (i : Int) (j : Nat) :
    (pick rules hash idx i j = (j : Int) ∧ cur_ok rules hash idx j = true) ∨
      pick rules hash idx i j = i := by
  unfold pick cur_ok
  split_ifs with h
  · left
    rw [Bool.and_eq_true] at h
    exact ⟨rfl, h.1⟩
  · right; rfl

theorem pick_nonneg (rules : List grule) (hash idx : List Int) (i : Int) (j : Nat)
    (h : 0 ≤ i ∨ cur_ok rules hash idx j = true) : 0 ≤ pick rules hash idx i j := by
  unfold pick
  split_ifs with hc
  · exact Int.ofNat_nonneg j
  · rcases h with h | h
    · exact h
    · unfold cur_ok at h
      rw [h] at hc
      simp only [Bool.true_and, Bool.or_eq_true, decide_eq_true_eq, not_or, not_lt] at hc
      exact hc.1

theorem first_pos_cases (rules : List grule) (hash idx : List Int) :
    (first_pos rules hash idx = -1 ∧ ∀ j, j < 3 → cur_ok rules hash idx j = false) ∨
    (∃ j : Nat, j < 3 ∧ first_pos rules hash idx = (j : Int) ∧
      cur_ok rules hash idx j = true) := by
  have hA : first_pos rules hash idx = -1 ∨ (∃ j : Nat, j < 3 ∧
      first_pos rules hash idx = (j : Int) ∧ cur_ok rules hash idx j = true) := by
    unfold first_pos
    rcases pick_eq rules hash idx
      (pick rules hash idx (pick rules hash idx (-1) 0) 1) 2 with h2 | h2
    · exact Or.inr ⟨2, by decide, h2.1, h2.2⟩
    · rw [h2]
      rcases pick_eq rules hash idx (pick rules hash idx (-1) 0) 1 with h1 | h1
      · exact Or.inr ⟨1, by decide, h1.1, h1.2⟩
      · rw [h1]
        rcases pick_eq rules hash idx (-1) 0 with h0 | h0
        · exact Or.inr ⟨0, by decide, h0.1, h0.2⟩
        · exact Or.inl h0
  rcases hA with h | h
  · left
    refine ⟨h, ?_⟩
    intro j hj
    by_contra hc
    rw [Bool.not_eq_false] at hc
    have hpos : 0 ≤ first_pos rules hash idx := by
      unfold first_pos
      interval_cases j
      · exact pick_nonneg _ _ _ _ _ (Or.inl (pick_nonneg _ _ _ _ _
          (Or.inl (pick_nonneg _ _ _ _ _ (Or.inr hc)))))
      · exact pick_nonneg _ _ _ _ _ (Or.inl (pick_nonneg _ _ _ _ _ (Or.inr hc)))
      · exact pick_nonneg _ _ _ _ _ (Or.inr hc)
    omega
  · exact Or.inr h

theorem cur_ok_iff (rules : List grule) (hash idx : List Int) (j : Nat) :
    cur_ok rules hash idx j = true ↔
      0 ≤ idx.getD j (-1) ∧ idx.getD j (-1) < rules.length ∧
        hash.getD j 0 = hash_at rules (idx.getD j (-1)).toNat := by
  unfold cur_ok cursor_ok
  simp only [Bool.and_eq_true, decide_eq_true_eq, and_assoc]

theorem cur_ok_rule (rules : List grule) (hash idx : List Int) (j : Nat)
    (h : cur_ok rules hash idx j = true) :
    ∃ r, rules[(idx.getD j (-1)).toNat]? = some r ∧ r.hash = hash.getD j 0 := by
  rw [cur_ok_iff] at h
  obtain ⟨h0, h1, h2⟩ := h
  have hk : (idx.getD j (-1)).toNat < rules.length := by omega
  refine ⟨rules[(idx.getD j (-1)).toNat], List.getElem?_eq_getElem hk, ?_⟩
  rw [h2]
  unfold hash_at
  rw [List.getElem?_eq_getElem hk]

theorem cur_ok_lt_length (rules : List grule) (hash idx : List Int) (j : Nat)
    (h : cur_ok rules hash idx j = true) : j < idx.length := by
  rw [cur_ok_iff] at h
  by_contra hc
  have : idx.getD j (-1) = -1 := by
    rw [List.getD_eq_getElem?_getD, List.getElem?_eq_none (by omega)]
    rfl
  omega

theorem getD_set_self (idx : List Int) (i : Nat) (v : Int) (h : i < idx.length) :
    (idx.set i v).getD i (-1) = v := by
  rw [List.getD_eq_getElem?_getD, List.getElem?_set_self h]
  rfl

theorem getD_set_ne (idx : List Int) (i j : Nat) (v : Int) (h : i ≠ j) :
    (idx.set i v).getD j (-1) = idx.getD j (-1) := by
  rw [List.getD_eq_getElem?_getD, List.getD_eq_getElem?_getD, List.getElem?_set_ne h]

/-- What a round of `font_findrule_loop` does, by the cases of the code. -/
theorem findrule_loop_step (fn : font) (rules : List grule) (hash : List Int)
    (src dst : List Int) (fuel : Nat) (idx : List Int) :
    (first_pos rules hash idx = -1 ∧ (∀ j, j < 3 → cur_ok rules hash idx j = false) ∧
      font_findrule_loop fn rules hash src dst (fuel + 1) idx = some none) ∨
    (∃ (i : Nat) (r : grule), i < 3 ∧ cur_ok rules hash idx i = true ∧
      rules[(idx.getD i (-1)).toNat]? = some r ∧ r.hash = hash.getD i 0 ∧
      font_findrule_loop fn rules hash src dst (fuel + 1) idx =
        match font_rulematches fn r src dst with
        | none => none
        | some true => some (some r)
        | some false =>
          font_findrule_loop fn rules hash src dst fuel (idx.set i (idx.getD i (-1) + 1))) := by
  rcases first_pos_cases rules hash idx with ⟨h, hall⟩ | ⟨i, hi, hfp, hok⟩
  · left
    refine ⟨h, hall, ?_⟩
    simp only [font_findrule_loop, h]
    rfl
  · right
    obtain ⟨r, hr, hh⟩ := cur_ok_rule rules hash idx i hok
    refine ⟨i, r, hi, hok, hr, hh, ?_⟩
    have hnn : ¬ ((i : Int) < 0) := by omega
    simp only [font_findrule_loop, hfp, hnn, if_false, Int.toNat_ofNat, hr]

/-! ## The loop of `font_findrule` -/

theorem cur_left_le (n : Nat) (k : Int) : cur_left n k ≤ n := by
  unfold cur_left
  split_ifs <;> omega

theorem rounds_left_set (n : Nat) (idx : List Int) (i : Nat) (hi : i < 3)
    (hlen : i < idx.length) (h0 : 0 ≤ idx.getD i (-1)) (h1 : idx.getD i (-1) < n) :
    rounds_left n (idx.set i (idx.getD i (-1) + 1)) + 1 = rounds_left n idx := by
  have hstep : cur_left n (idx.getD i (-1) + 1) + 1 = cur_left n (idx.getD i (-1)) := by
    unfold cur_left
    rw [if_pos (by omega), if_pos h0]
    omega
  unfold rounds_left
  interval_cases i
  · rw [getD_set_self idx 0 _ hlen, getD_set_ne idx 0 1 _ (by decide),
      getD_set_ne idx 0 2 _ (by decide)]
    omega
  · rw [getD_set_self idx 1 _ hlen, getD_set_ne idx 1 0 _ (by decide),
      getD_set_ne idx 1 2 _ (by decide)]
    omega
  · rw [getD_set_self idx 2 _ hlen, getD_set_ne idx 2 0 _ (by decide),
      getD_set_ne idx 2 1 _ (by decide)]
    omega

/-- A rule returned by the loop is a rule of the table that the matcher accepts. -/
theorem findrule_loop_sound (fn : font) (rules : List grule) (hash : List Int)
    (src dst : List Int) (r : grule) :
    ∀ (fuel : Nat) (idx : List Int),
      font_findrule_loop fn rules hash src dst fuel idx = some (some r) →
        r ∈ rules ∧ font_rulematches fn r src dst = some true := by
  intro fuel
  induction fuel with
  | zero => intro idx h; simp [font_findrule_loop] at h
  | succ fuel ih =>
    intro idx h
    rcases findrule_loop_step fn rules hash src dst fuel idx with
      ⟨_, _, hn⟩ | ⟨i, r1, _, _, hr, _, hstep⟩
    · rw [hn] at h; simp at h
    · rw [hstep] at h
      cases hm : font_rulematches fn r1 src dst with
      | none => rw [hm] at h; simp at h
      | some b =>
        cases b with
        | true =>
          rw [hm] at h
          simp only [Option.some.injEq] at h
          subst h
          exact ⟨List.getElem?_mem hr, hm⟩
        | false =>
          rw [hm] at h
          exact ih _ h

/-- When the matcher rejects every rule of the table the loop returns `NULL`,
within the rounds the cursors have left. -/
theorem findrule_loop_none (fn : font) (rules : List grule) (hash : List Int)
    (src dst : List Int)
    (hrej : ∀ r, r ∈ rules → font_rulematches fn r src dst = some false) :
    ∀ (fuel : Nat) (idx : List Int), rounds_left rules.length idx < fuel →
      font_findrule_loop fn rules hash src dst fuel idx = some none := by
  intro fuel
  induction fuel with
  | zero => intro idx h; omega
  | succ fuel ih =>
    intro idx h
    rcases findrule_loop_step fn rules hash src dst fuel idx with
      ⟨_, _, hn⟩ | ⟨i, r1, hi, hok, hr, _, hstep⟩
    · exact hn
    · rw [hstep, hrej r1 (List.getElem?_mem hr)]
      have hlen := cur_ok_lt_length rules hash idx i hok
      rw [cur_ok_iff] at hok
      have := rounds_left_set rules.length idx i hi hlen hok.1 hok.2.1
      exact ih _ (by omega)

theorem probe_cursors_rounds (rules : List grule) (src : List Int) :
    rounds_left rules.length (probe_cursors rules src) < 3 * rules.length + 1 := by
  have h0 := cur_left_le rules.length ((probe_cursors rules src).getD 0 (-1))
  have h1 := cur_left_le rules.length ((probe_cursors rules src).getD 1 (-1))
  have h2 := cur_left_le rules.length ((probe_cursors rules src).getD 2 (-1))
  unfold rounds_left
  omega

theorem findrule_none_of_rejected (fn : font) (rules : List grule) (src dst : List Int)
    (hrej : ∀ r, r ∈ rules → font_rulematches fn r src dst = some false) :
    font_findrule fn rules src dst = some none :=
  findrule_loop_none fn rules _ src dst hrej _ _ (probe_cursors_rounds rules src)

theorem findrule_sound (fn : font) (rules : List grule) (src dst : List Int) (r : grule)
    (h : font_findrule fn rules src dst = some (some r)) :
    r ∈ rules ∧ font_rulematches fn r src dst = some true :=
  findrule_loop_sound fn rules _ src dst r _ _ h

/-! ## Binary search and buckets -/

theorem sorted_getElem (rules : List grule) (hs : table_sorted rules) (q m : Nat)
    (a b : grule) (ha : rules[q]? = some a) (hb : rules[m]? = some b) (hqm : q < m) :
    grulecmp a b ≤ 0 := by
  obtain ⟨hq, rfl⟩ := List.getElem?_eq_some_iff.mp ha
  obtain ⟨hm, rfl⟩ := List.getElem?_eq_some_iff.mp hb
  exact List.pairwise_iff_getElem.mp hs q m hq hm hqm

theorem grulecmp_hash_le (a b : grule) (h : grulecmp a b ≤ 0) : a.hash ≤ b.hash := by
  unfold grulecmp at h
  split_ifs at h with he
  · omega
  · omega

theorem sorted_hash_at_le (rules : List grule) (hs : table_sorted rules) (q m : Nat)
    (hqm : q ≤ m) (hm : m < rules.length) : hash_at rules q ≤ hash_at rules m := by
  rcases Nat.eq_or_lt_of_le hqm with rfl | hlt
  · exact le_refl _
  · have hq : q < rules.length := by omega
    have := sorted_getElem rules hs q m rules[q] rules[m]
      (List.getElem?_eq_getElem hq) (List.getElem?_eq_getElem hm) hlt
    unfold hash_at
    rw [List.getElem?_eq_getElem hq, List.getElem?_eq_getElem hm]
    exact grulecmp_hash_le _ _ this

/-- Every rule left of the index the binary search ends at has a smaller hash. -/
theorem grule_find_loop_lt (rules : List grule) (hs : table_sorted rules) (t : Int) :
    ∀ (fuel l h : Nat), h ≤ rules.length → (∀ q, q < l → hash_at rules q < t) →
      ∀ q, q < grule_find_loop rules t fuel l h → hash_at rules q < t := by
  intro fuel
  induction fuel with
  | zero => intro l h _ hl q hq; exact hl q hq
  | succ fuel ih =>
    intro l h hh hl q hq
    unfold grule_find_loop at hq
    split_ifs at hq with hlh hge
    · exact ih l ((l + h) / 2) (by omega) hl q hq
    · refine ih ((l + h) / 2 + 1) h hh ?_ q hq
      intro q1 hq1
      have hle := sorted_hash_at_le rules hs q1 ((l + h) / 2) (by omega) (by omega)
      omega
    · exact hl q hq

theorem grule_find_lower (rules : List grule) (hs : table_sorted rules) (t : Int) (q : Nat)
    (hq : (q : Int) < grule_find rules t) : hash_at rules q < t := by
  unfold grule_find at hq
  simp only at hq
  split_ifs at hq with he
  · exact grule_find_loop_lt rules hs t rules.length 0 rules.length (le_refl _)
      (fun q hq => absurd hq (Nat.not_lt_zero q)) q (by omega)
  · omega

theorem probe_cursors_lower (rules : List grule) (hs : table_sorted rules) (src : List Int)
    (j : Nat) (q : Nat) (hq : (q : Int) < (probe_cursors rules src).getD j (-1)) :
    hash_at rules q ≠ (probe_hashes src).getD j 0 := by
  have key : ∀ t, (q : Int) < grule_find rules t → hash_at rules q ≠ t := by
    intro t h
    have := grule_find_lower rules hs t q h
    omega
  unfold probe_cursors at hq
  match j with
  | 0 => exact key _ hq
  | 1 =>
    simp only [List.getD_cons_succ, List.getD_cons_zero] at hq
    split_ifs at hq
    · exact key _ hq
    · omega
  | 2 =>
    simp only [List.getD_cons_succ, List.getD_cons_zero] at hq
    split_ifs at hq
    · exact key _ hq
    · omega
  | (j + 3) =>
    simp at hq
    omega

theorem findrule_loop_bucket (fn : font) (rules : List grule) (hash : List Int)
    (src dst : List Int) (r : grule) :
    ∀ (fuel : Nat) (idx : List Int), tried fn rules hash src dst idx →
      font_findrule_loop fn rules hash src dst fuel idx = some (some r) →
        ∃ k : Nat, rules[k]? = some r ∧ ∀ (q : Nat) (r1 : grule), rules[q]? = some r1 →
          q < k → r1.hash = r.hash → font_rulematches fn r1 src dst = some false := by
  intro fuel
  induction fuel with
  | zero => intro idx _ h; simp [font_findrule_loop] at h
  | succ fuel ih =>
    intro idx hinv h
    rcases findrule_loop_step fn rules hash src dst fuel idx with
      ⟨_, _, hn⟩ | ⟨i, r1, hi, hok, hr, hh, hstep⟩
    · rw [hn] at h; simp at h
    · rw [hstep] at h
      have hlen := cur_ok_lt_length rules hash idx i hok
      rw [cur_ok_iff] at hok
      cases hm : font_rulematches fn r1 src dst with
      | none => rw [hm] at h; simp at h
      | some b =>
        cases b with
        | true =>
          rw [hm] at h
          simp only [Option.some.injEq] at h
          subst h
          refine ⟨_, hr, ?_⟩
          intro q r2 hr2 hq hh2
          exact hinv i q r2 hr2 (by omega) (by rw [hh2, hh])
        | false =>
          rw [hm] at h
          refine ih _ ?_ h
          intro j q r2 hr2 hq hh2
          by_cases hji : i = j
          · subst hji
            rw [getD_set_self idx i _ hlen] at hq
            by_cases hqk : (q : Int) < idx.getD i (-1)
            · exact hinv i q r2 hr2 hqk hh2
            · have hqe : q = (idx.getD i (-1)).toNat := by omega
              rw [hqe, hr] at hr2
              simp only [Option.some.injEq] at hr2
              rw [← hr2]
              exact hm
          · rw [getD_set_ne idx i j _ hji] at hq
            exact hinv j q r2 hr2 hq hh2

/-! ## Tables of one rule and the steps of `font_layout` -/

theorem grule_find_single (r : grule) (t : Int) (h : r.hash = t) : grule_find [r] t = 0 := by
  simp [grule_find, grule_find_loop, hash_at, h]

theorem findrule_single_accept (fn : font) (r : grule) (src dst : List Int)
    (hacc : font_rulematches fn r src dst = some true)
    (hprobe : ∃ j, j < 3 ∧ j ≤ src.length ∧ r.hash = (probe_hashes src).getD j 0) :
    font_findrule fn [r] src dst = some (some r) := by
  obtain ⟨j, hj3, hjlen, hh⟩ := hprobe
  have hidx : (probe_cursors [r] src).getD j (-1) = 0 := by
    unfold probe_cursors
    interval_cases j
    · exact grule_find_single r _ hh
    · simp only [List.getD_cons_succ, List.getD_cons_zero]
      rw [if_pos hjlen]
      exact grule_find_single r _ hh
    · simp only [List.getD_cons_succ, List.getD_cons_zero]
      rw [if_pos hjlen]
      exact grule_find_single r _ hh
  have hok : cur_ok [r] (probe_hashes src) (probe_cursors [r] src) j = true := by
    rw [cur_ok_iff, hidx]
    refine ⟨le_refl _, by simp, ?_⟩
    simp [hash_at, hh]
  unfold font_findrule
  rcases findrule_loop_step fn [r] (probe_hashes src) src dst (3 * [r].length)
      (probe_cursors [r] src) with ⟨_, hall, _⟩ | ⟨i, r1, _, _, hr, _, hstep⟩
  · rw [hall j hj3] at hok
    exact absurd hok (by decide)
  · have hmem := List.getElem?_mem hr
    simp only [List.mem_singleton] at hmem
    subst hmem
    rw [hstep, hacc]

theorem findrule_empty (fn : font) (src dst : List Int) :
    font_findrule fn [] src dst = some none :=
  findrule_none_of_rejected fn [] src dst (fun r hr => absurd hr (List.not_mem_nil r))

theorem pos_loop_succ (fn : font) (dst : List Int) (k : Nat) (st : posst) :
    pos_loop fn dst (k + 1) st =
    match font_findrule fn fn.gpos (dst.drop (dst.length - (k + 1)))
        (dst.take (dst.length - (k + 1))) with
    | none => none
    | some none => pos_loop fn dst k st
    | some (some rule) =>
      match pos_rule rule.pats dst (dst.length - (k + 1)) (rule.pats.length + 1) 0 st with
      | none => none
      | some st1 => pos_loop fn dst k st1 := by
  rfl

theorem pos_loop_none (fn : font) (dst : List Int)
    (h : ∀ src1 dst1, font_findrule fn fn.gpos src1 dst1 = some none) :
    ∀ (k : Nat) (st : posst), pos_loop fn dst k st = some st := by
  intro k
  induction k with
  | zero => intro st; rfl
  | succ k ih =>
    intro st
    rw [pos_loop_succ, h]
    exact ih st

theorem subst_loop_done (fn : font) (src : List Int) (fuel i : Nat) (dst : List Int)
    (dmap : cells) (h : src.length ≤ i) :
    subst_loop fn src fuel i dst dmap = some (dst, dmap) := by
  rw [subst_loop.eq_def, if_pos h]

theorem subst_loop_rule (fn : font) (src : List Int) (fuel i : Nat) (dst : List Int)
    (dmap : cells) (rule : grule) (h : i < src.length)
    (hf : font_findrule fn fn.gsub (src.drop i) dst = some (some rule)) :
    subst_loop fn src (fuel + 1) i dst dmap =
      subst_loop fn src fuel (apply_rule rule.pats i dst).1 (apply_rule rule.pats i dst).2
        (poke dmap dst.length i) := by
  rw [subst_loop.eq_def, if_neg (by omega)]
  simp only [hf]

theorem subst_loop_pass (fn : font) (src : List Int) (fuel i : Nat) (dst : List Int)
    (dmap : cells) (h : i < src.length)
    (hf : font_findrule fn fn.gsub (src.drop i) dst = some none) :
    subst_loop fn src (fuel + 1) i dst dmap =
      subst_loop fn src fuel (i + 1) (dst ++ [src.getD i 0]) (poke dmap dst.length i) := by
  rw [subst_loop.eq_def, if_neg (by omega)]
  simp only [hf]

theorem ligature_matches (fn : font) (r : grule) (A B C : Int)
    (hpats : r.pats = [pat_elem A, pat_elem B, rep_elem C])
    (hfeat : feat_set fn r.feat ≠ 0) (rest : List Int) :
    font_rulematches fn r (A :: B :: rest) [] = some true := by
  simp [font_rulematches, hpats, hfeat, ncon_of, con_run, match_base, match_ctx, skip_alt,
    skip_alt_from, pat_elem, rep_elem, GF_PAT, GF_REP, GF_CON, GF_ALT]

theorem ligature_hash (r : grule) (A B C : Int) (hA : 0 ≤ A)
    (hpats : r.pats = [pat_elem A, pat_elem B, rep_elem C]) :
    grule_hash r = GHASH A B := by
  have hA1 : ¬ A < 0 := by omega
  simp [grule_hash, hpats, hash_glyph, pat_elem, rep_elem, GF_PAT, GF_REP, hA1]

/-! ## C1: ligature -/

/-- C1. Ligature: in a font whose only substitution rule is the rule
`-A -B +C` of an enabled feature, hashed as `font_open` hashes it, and which
has no positioning rules, `font_layout` of the run `[A, B]` returns 1 with
`gdst[0]` the glyph `C`, `dmap[0] = 0` and offsets and advances zero. -/
theorem font_layout_ligature (fn : font) (r : grule) (A B C : Int) (fuel : Nat)
    (hA : glyph_idx fn A)
    (hsub : fn.gsub = [r]) (hpats : r.pats = [pat_elem A, pat_elem B, rep_elem C])
    (hhash : r.hash = grule_hash r) (hfeat : feat_set fn r.feat ≠ 0)
    (hpos : fn.gpos = []) (hfuel : 0 < fuel) :
    font_layout fuel fn [gptr.glyph A, gptr.glyph B] =
      some (layout.mk 1 [gptr.glyph C] [some 0] [some 0] [some 0] [some 0] [some 0]) := by
  obtain ⟨fuel1, rfl⟩ : ∃ f, fuel = f + 1 := ⟨fuel - 1, by omega⟩
  have hfind : font_findrule fn fn.gsub ([A, B].drop 0) [] = some (some r) := by
    rw [hsub]
    refine findrule_single_accept fn r [A, B] [] (ligature_matches fn r A B C hpats hfeat [])
      ⟨2, by decide, by simp, ?_⟩
    rw [hhash, ligature_hash r A B C hA.1 hpats]
    rfl
  have hposnone : ∀ src1 dst1, font_findrule fn fn.gpos src1 dst1 = some none := by
    intro src1 dst1
    rw [hpos]
    exact findrule_empty fn src1 dst1
  have happ : apply_rule r.pats 0 [] = (2, [C]) := by
    simp [apply_rule, apply_pat, hpats, pat_elem, rep_elem, GF_PAT, GF_REP]
  have hsubst : subst_loop fn [A, B] (fuel1 + 1) 0 [] [] = some ([C], [some 0]) := by
    rw [subst_loop_rule fn [A, B] fuel1 0 [] [] r (by simp) hfind, happ]
    exact subst_loop_done fn [A, B] fuel1 2 [C] _ (by simp)
  unfold font_layout
  simp only [List.mapM_cons, List.mapM_nil, font_idx, Option.pure_def, Option.bind_eq_bind,
    Option.some_bind, hsubst]
  rw [pos_loop_none fn [C] hposnone]
  rfl

theorem font_layout_ligature_witness :
    glyph_idx lig_font 0 ∧ lig_rule.hash = grule_hash lig_rule ∧
    font_layout 1 lig_font [gptr.glyph 0, gptr.glyph 1] =
      some (layout.mk 1 [gptr.glyph 2] [some 0] [some 0] [some 0] [some 0] [some 0]) :=
  ⟨by decide, by decide,
    font_layout_ligature lig_font lig_rule 0 1 2 1 (by decide) rfl rfl (by decide) (by decide)
      rfl (by decide)⟩

/-! ## C2: identity pass-through -/

theorem mapM_font_idx (ks : List Int) : (ks.map gptr.glyph).mapM font_idx = some ks := by
  induction ks with
  | nil => rfl
  | cons k ks ih =>
    rw [List.map_cons, List.mapM_cons, ih]
    rfl

theorem rejected_of_disabled (fn : font) (h : all_disabled fn) (r : grule)
    (src dst : List Int) : font_rulematches fn r src dst = some false := by
  have hz : feat_set fn r.feat = 0 := by
    unfold feat_set
    cases hk : fn.feats[r.feat]? with
    | none => rfl
    | some f => exact h f (List.getElem?_mem hk)
  unfold font_rulematches
  rw [if_pos hz]

theorem poke_end (a : cells) (v : Int) : poke a a.length v = a ++ [some v] := by
  simp [poke]

theorem subst_loop_identity (fn : font) (src : List Int)
    (h : ∀ src1 dst1, font_findrule fn fn.gsub src1 dst1 = some none) :
    ∀ (fuel i : Nat), i ≤ src.length → src.length - i ≤ fuel →
      subst_loop fn src fuel i (src.take i) (id_dmap i) =
        some (src, id_dmap src.length) := by
  intro fuel
  induction fuel with
  | zero =>
    intro i hi hf
    have : i = src.length := by omega
    subst this
    rw [subst_loop_done fn src 0 _ _ _ (le_refl _), List.take_length]
  | succ fuel ih =>
    intro i hi hf
    rcases Nat.eq_or_lt_of_le hi with he | hlt
    · subst he
      rw [subst_loop_done fn src _ _ _ _ (le_refl _), List.take_length]
    · rw [subst_loop_pass fn src fuel i _ _ hlt (h _ _)]
      have h1 : src.take i ++ [src.getD i 0] = src.take (i + 1) := by
        rw [List.take_succ, List.getD_eq_getElem?_getD, List.getElem?_eq_getElem hlt]
        rfl
      have h2 : poke (id_dmap i) (src.take i).length i = id_dmap (i + 1) := by
        have hl : (src.take i).length = (id_dmap i).length := by
          simp [id_dmap]; omega
        rw [hl, poke_end]
        unfold id_dmap
        rw [List.range_succ, List.map_append]
        rfl
      rw [h1, h2]
      exact ih (i + 1) (by omega) (by omega)

theorem layout_of_no_match (fn : font) (ks : List Int) (fuel : Nat)
    (hsub : ∀ src1 dst1, font_findrule fn fn.gsub src1 dst1 = some none)
    (hpos : ∀ src1 dst1, font_findrule fn fn.gpos src1 dst1 = some none)
    (hfuel : ks.length ≤ fuel) :
    font_layout fuel fn (ks.map gptr.glyph) = some (identity_layout ks) := by
  have hs := subst_loop_identity fn ks hsub fuel 0 (Nat.zero_le _) (by omega)
  simp only [List.take_zero, id_dmap, List.range_zero, List.map_nil] at hs
  unfold font_layout
  simp only [mapM_font_idx, hs]
  rw [pos_loop_none fn ks hpos]
  rfl

/-- C2, as amended. Identity pass-through: for a font that has neither
substitution nor positioning rules, or whose features are all disabled, and a
run of glyphs of the font, `font_layout` returns the length of the run with
`gdst[i] = gsrc[i]`, `dmap[i] = i` and `x[i] = y[i] = xadv[i] = yadv[i] = 0`.
It holds for runs of any length, so for those of at most `WORDLEN` glyphs. -/
theorem font_layout_identity (fn : font) (ks : List Int) (fuel : Nat)
    (h : (fn.gsub = [] ∧ fn.gpos = []) ∨ all_disabled fn) (hfuel : ks.length ≤ fuel) :
    font_layout fuel fn (ks.map gptr.glyph) = some (identity_layout ks) := by
  rcases h with ⟨h1, h2⟩ | h
  · refine layout_of_no_match fn ks fuel ?_ ?_ hfuel
    · intro s d; rw [h1]; exact findrule_empty fn s d
    · intro s d; rw [h2]; exact findrule_empty fn s d
  · refine layout_of_no_match fn ks fuel ?_ ?_ hfuel
    · intro s d
      exact findrule_none_of_rejected fn _ s d (fun r _ => rejected_of_disabled fn h r s d)
    · intro s d
      exact findrule_none_of_rejected fn _ s d (fun r _ => rejected_of_disabled fn h r s d)

theorem font_layout_identity_witness :
    all_disabled kern_off_font ∧
    font_layout 2 kern_off_font [gptr.glyph 0, gptr.glyph 1] = some (identity_layout [0, 1]) :=
  ⟨by decide, font_layout_identity kern_off_font [0, 1] 2 (Or.inr (by decide)) (by decide)⟩

/-- C2, as stated, fails: a font without substitution rules can have an enabled
kerning rule, and then the run `[g0, g1]` of its glyphs comes back with
`xadv[0] = 5`, not with all advances zero. -/
theorem identity_fails_under_kerning :
    ¬ (∀ (fn : font) (ks : List Int) (fuel : Nat), (fn.gsub = [] ∨ all_disabled fn) →
        (∀ k, k ∈ ks → glyph_idx fn k) → ks.length ≤ fuel →
          font_layout fuel fn (ks.map gptr.glyph) = some (identity_layout ks)) := by
  intro h
  have h1 := h kern_font [0, 1] 2 (Or.inl rfl) (by decide) (by decide)
  revert h1
  decide

/-! ## C3 and C4: evaluations -/

/-- C3, evaluated on the run `[g2, g0, g1]` of `kern_font`: the kerning rule
for the pair `(g0, g1)` with `xadv = 5` is found at output position 1, yet
`xadv[1]` stays 0, because the positioning loop compares the rule glyphs with
`dst[didx]`, the start of the output, and not with the glyphs at position 1. -/
theorem kern_skipped_after_first_glyph :
    kern_rule.hash = grule_hash kern_rule ∧
    font_findrule kern_font kern_font.gpos [0, 1] [2] = some (some kern_rule) ∧
    font_layout 3 kern_font [gptr.glyph 2, gptr.glyph 0, gptr.glyph 1] =
      some (layout.mk 3 [gptr.glyph 2, gptr.glyph 0, gptr.glyph 1] [some 0, some 1, some 2]
        [some 0, some 0, some 0] [some 0, some 0, some 0] [some 0, some 0, some 0]
        [some 0, some 0, some 0]) := by
  decide

/-- C4, evaluated on the sorted table of `prio_font` and the slice `[g0, g1]`:
both rules are accepted, and `font_findrule` returns the rule declared later
(position 1), not the accepted rule with the smallest position. -/
theorem findrule_returns_later_rule :
    table_sorted prio_font.gsub ∧
    early_rule.hash = grule_hash early_rule ∧ late_rule.hash = grule_hash late_rule ∧
    font_rulematches prio_font early_rule [0, 1] [] = some true ∧
    font_rulematches prio_font late_rule [0, 1] [] = some true ∧
    early_rule.pos < late_rule.pos ∧
    font_findrule prio_font prio_font.gsub [0, 1] [] = some (some late_rule) := by
  decide

/-! ## C5: order inside a bucket -/

/-- Order inside a bucket: on a table sorted by `grulecmp`, when
`font_findrule` returns rule `r`, `font_rulematches` returns 0 for every rule
of the table with the hash of `r` and a smaller position; so of two accepted
rules with equal hashes the later-declared one is not returned. -/
theorem findrule_bucket_order (fn : font) (rules : List grule) (src dst : List Int)
    (r : grule) (hs : table_sorted rules)
    (h : font_findrule fn rules src dst = some (some r)) :
    (∀ r1, r1 ∈ rules → r1.hash = r.hash → r1.pos < r.pos →
      font_rulematches fn r1 src dst = some false) ∧
    (∀ a b, a ∈ rules → b ∈ rules → a.hash = b.hash → a.pos < b.pos →
      font_rulematches fn a src dst = some true → font_rulematches fn b src dst = some true →
        r ≠ b) := by
  have hfirst : ∀ r1, r1 ∈ rules → r1.hash = r.hash → r1.pos < r.pos →
      font_rulematches fn r1 src dst = some false := by
    have hinit : tried fn rules (probe_hashes src) src dst (probe_cursors rules src) := by
      intro j q r2 hr2 hq hh
      have hne := probe_cursors_lower rules hs src j q hq
      have : hash_at rules q = r2.hash := by
        unfold hash_at; rw [hr2]
      rw [this] at hne
      exact absurd hh hne
    obtain ⟨k, hk, hbefore⟩ := findrule_loop_bucket fn rules _ src dst r _ _ hinit h
    intro r1 hr1 hh hp
    obtain ⟨q, hq⟩ := List.getElem?_of_mem hr1
    rcases Nat.lt_trichotomy q k with hlt | heq | hgt
    · exact hbefore q r1 hq hlt hh
    · subst heq
      rw [hq] at hk
      simp only [Option.some.injEq] at hk
      subst hk
      omega
    · have hc := sorted_getElem rules hs k q r r1 hk hq hgt
      unfold grulecmp at hc
      rw [if_pos hh.symm] at hc
      omega
  refine ⟨hfirst, ?_⟩
  intro a b ha _ hab hpos hacca _ hrb
  subst hrb
  have := hfirst a ha hab hpos
  rw [hacca] at this
  simp at this

theorem findrule_bucket_order_witness :
    table_sorted (font_feat gate_font "ss01" 0).2.gsub ∧
    font_findrule (font_feat gate_font "ss01" 0).2 (font_feat gate_font "ss01" 0).2.gsub [0] [] =
      some (some (grule.mk [pat_elem 0, rep_elem 6] 1 2 1)) ∧
    font_rulematches (font_feat gate_font "ss01" 0).2 (grule.mk [pat_elem 0, rep_elem 5] 0 0 1)
      [0] [] = some false :=
  ⟨by decide, by decide,
    (findrule_bucket_order (font_feat gate_font "ss01" 0).2 (font_feat gate_font "ss01" 0).2.gsub
      [0] [] (grule.mk [pat_elem 0, rep_elem 6] 1 2 1) (by decide) (by decide)).1
      (grule.mk [pat_elem 0, rep_elem 5] 0 0 1) (by decide) (by decide) (by decide)⟩

/-- C5, evaluated on the sorted table of `gate_font`, both features enabled,
and the slice `[g0, g1]`: the rules `-g0 +g5` (position 0) and `-g0 +g6`
(position 2) have the same hash and both match, yet the earlier-declared one
is not returned.  `font_findrule` returns `-g0 -g1 +g7` (position 1) from the
bucket of the two-glyph key: of the two cursors that stand at an untried rule
the selection loop takes the one whose rule has the larger position. -/
theorem earlier_rule_not_returned :
    table_sorted gate_font.gsub ∧
    (∀ r, r ∈ gate_font.gsub → r.hash = grule_hash r) ∧
    gate_font.gsub =
      [grule.mk [pat_elem 0, rep_elem 5] 0 0 1, grule.mk [pat_elem 0, rep_elem 6] 1 2 1,
        grule.mk [pat_elem 0, pat_elem 1, rep_elem 7] 1 1 131073] ∧
    font_rulematches gate_font (grule.mk [pat_elem 0, rep_elem 5] 0 0 1) [0, 1] [] = some true ∧
    font_rulematches gate_font (grule.mk [pat_elem 0, rep_elem 6] 1 2 1) [0, 1] [] = some true ∧
    font_findrule gate_font gate_font.gsub [0, 1] [] =
      some (some (grule.mk [pat_elem 0, pat_elem 1, rep_elem 7] 1 1 131073)) ∧
    font_findrule gate_font gate_font.gsub [0, 1] [] ≠
      some (some (grule.mk [pat_elem 0, rep_elem 5] 0 0 1)) := by
  decide

/-! ## C6: alternation -/

theorem skip_alt_from_run (alts : List gpat) (last : gpat) (rest : List gpat)
    (halts : ∀ a, a ∈ alts → a.flg &&& GF_ALT ≠ 0) (hlast : last.flg &&& GF_ALT = 0) :
    ∀ j, skip_alt_from (alts ++ last :: rest) j = some (j + alts.length) := by
  induction alts with
  | nil =>
    intro j
    simp [skip_alt_from, hlast]
  | cons a alts ih =>
    intro j
    have ha := halts a (List.mem_cons_self a alts)
    rw [List.cons_append, skip_alt_from, if_pos ha,
      ih (fun b hb => halts b (List.mem_cons_of_mem a hb)) (j + 1), List.length_cons]
    congr 1
    omega

theorem skip_alt_run (pre alts : List gpat) (last : gpat) (rest : List gpat)
    (halts : ∀ a, a ∈ alts → a.flg &&& GF_ALT ≠ 0) (hlast : last.flg &&& GF_ALT = 0) :
    skip_alt (pre ++ (alts ++ last :: rest)) pre.length = some (pre.length + alts.length) := by
  unfold skip_alt
  rw [List.drop_left]
  exact skip_alt_from_run alts last rest halts hlast pre.length

theorem getElem?_mid (pre : List gpat) (p : gpat) (suf : List gpat) :
    (pre ++ p :: suf)[pre.length]? = some p := by
  rw [List.getElem?_append_right (le_refl _), Nat.sub_self, List.getElem?_cons_zero]

theorem slots_accept_drop (s : List Int) (rest : List (List Int)) (src : List Int) (sidx : Nat) :
    slots_accept (s :: rest) (src.drop sidx) =
      match src[sidx]? with
      | none => false
      | some g => decide (g ∈ s) && slots_accept rest (src.drop (sidx + 1)) := by
  cases h : src[sidx]? with
  | none =>
    have : src.drop sidx = [] := by
      rw [List.drop_eq_nil_iff]
      exact List.getElem?_eq_none_iff.mp h
    rw [this]
    rfl
  | some g =>
    obtain ⟨hlt, hg⟩ := List.getElem?_eq_some_iff.mp h
    rw [List.drop_eq_getElem_cons hlt, hg]
    rfl

theorem match_base_end (pre : List gpat) (src : List Int) (fuel sidx : Nat) :
    match_base (pre ++ []) src (fuel + 1) pre.length sidx = some true := by
  rw [List.append_nil, match_base, List.getElem?_eq_none (le_refl _)]
  simp

theorem match_base_segs (src : List Int) (segs : List seg) (hok : ∀ s, s ∈ segs → seg_ok s) :
    ∀ (pre : List gpat) (fuel sidx : Nat), (flat segs).length < fuel →
      match_base (pre ++ flat segs) src fuel pre.length sidx =
        some (slots_accept (slot_glyphs segs) (src.drop sidx)) := by
  induction segs with
  | nil =>
    intro pre fuel sidx hf
    obtain ⟨f1, rfl⟩ : ∃ f, fuel = f + 1 := ⟨fuel - 1, by omega⟩
    exact match_base_end pre src f1 sidx
  | cons s segs ih =>
    have ih1 := ih (fun t ht => hok t (List.mem_cons_of_mem s ht))
    have hs := hok s (List.mem_cons_self s segs)
    cases s with
    | rep p =>
      intro pre fuel sidx hf
      obtain ⟨f1, rfl⟩ : ∃ f, fuel = f + 1 := ⟨fuel - 1, by omega⟩
      have hrep : p.flg &&& GF_REP ≠ 0 := by
        rcases hs with h | h <;> rw [h] <;> decide
      have hlen : (flat (seg.rep p :: segs)).length = (flat segs).length + 1 := by
        simp [flat, seg.elems]
      have hcat : pre ++ flat (seg.rep p :: segs) = (pre ++ [p]) ++ flat segs := by
        simp [flat, seg.elems]
      have hget : (pre ++ flat (seg.rep p :: segs))[pre.length]? = some p := by
        simp only [flat, seg.elems, List.singleton_append]
        exact getElem?_mid pre p (flat segs)
      rw [match_base, hget]
      simp only [hrep, ne_eq, not_false_eq_true, if_true]
      rw [hcat]
      have := ih1 (pre ++ [p]) f1 sidx (by omega)
      rw [List.length_append, List.length_singleton] at this
      rw [this]
      rfl
    | slot alts last =>
      obtain ⟨halts, hlast⟩ := hs
      have hlastalt : last.flg &&& GF_ALT = 0 := by rw [hlast]; decide
      have hlastrep : ¬ (last.flg &&& GF_REP ≠ 0) := by rw [hlast]; decide
      have key : ∀ (as : List gpat), (∀ a, a ∈ as → a.flg = GF_PAT ||| GF_ALT) →
          ∀ (pre : List gpat) (fuel sidx : Nat), (as ++ last :: flat segs).length < fuel →
            match_base (pre ++ (as ++ last :: flat segs)) src fuel pre.length sidx =
              some (match src[sidx]? with
                | none => false
                | some g => decide (g ∈ (as ++ [last]).map gpat.g) &&
                    slots_accept (slot_glyphs segs) (src.drop (sidx + 1))) := by
        intro as
        induction as with
        | nil =>
          intro _ pre fuel sidx hf
          obtain ⟨f1, rfl⟩ : ∃ f, fuel = f + 1 := ⟨fuel - 1, by omega⟩
          rw [List.nil_append, match_base, getElem?_mid]
          simp only [hlastrep, if_false]
          by_cases hm : src[sidx]? = some last.g
          · rw [if_pos hm]
            have hsk := skip_alt_run pre [] last (flat segs)
              (fun a ha => absurd ha (List.not_mem_nil a)) hlastalt
            rw [List.nil_append] at hsk
            rw [hsk]
            simp only [List.length_nil, Nat.add_zero]
            have hcat : pre ++ last :: flat segs = (pre ++ [last]) ++ flat segs := by simp
            rw [hcat]
            have := ih1 (pre ++ [last]) f1 (sidx + 1) (by simp at hf; omega)
            rw [List.length_append, List.length_singleton] at this
            rw [this, hm]
            simp
          · rw [if_neg hm, if_pos hlastalt]
            cases hg : src[sidx]? with
            | none => rfl
            | some g =>
              have : g ≠ last.g := by
                intro he; rw [hg, he] at hm; exact hm rfl
              simp [this]
        | cons a as iha =>
          intro hflags pre fuel sidx hf
          obtain ⟨f1, rfl⟩ : ∃ f, fuel = f + 1 := ⟨fuel - 1, by omega⟩
          have hflags1 : ∀ b, b ∈ as → b.flg = GF_PAT ||| GF_ALT :=
            fun b hb => hflags b (List.mem_cons_of_mem a hb)
          have ha := hflags a (List.mem_cons_self a as)
          have haalt : ¬ (a.flg &&& GF_ALT = 0) := by rw [ha]; decide
          have harep : ¬ (a.flg &&& GF_REP ≠ 0) := by rw [ha]; decide
          rw [List.cons_append, match_base, getElem?_mid]
          simp only [harep, if_false]
          by_cases hm : src[sidx]? = some a.g
          · rw [if_pos hm]
            have hsk := skip_alt_run pre (a :: as) last (flat segs)
              (fun b hb => by rw [hflags b hb]; decide) hlastalt
            rw [List.cons_append] at hsk
            rw [hsk]
            simp only
            have hcat : pre ++ a :: (as ++ last :: flat segs) =
                (pre ++ (a :: as ++ [last])) ++ flat segs := by simp
            rw [hcat]
            have := ih1 (pre ++ (a :: as ++ [last])) f1 (sidx + 1)
              (by simp at hf; omega)
            have hl : (pre ++ (a :: as ++ [last])).length = pre.length + (a :: as).length + 1 := by
              simp; omega
            rw [hl] at this
            rw [this, hm]
            simp
          · rw [if_neg hm, if_neg haalt]
            have hcat : pre ++ a :: (as ++ last :: flat segs) =
                (pre ++ [a]) ++ (as ++ last :: flat segs) := by simp
            rw [hcat]
            have := iha hflags1 (pre ++ [a]) f1 sidx (by simp at hf ⊢; omega)
            rw [List.length_append, List.length_singleton] at this
            rw [this]
            cases hg : src[sidx]? with
            | none => rfl
            | some g =>
              have : g ≠ a.g := by
                intro he; rw [hg, he] at hm; exact hm rfl
              simp [this]
      intro pre fuel sidx hf
      have hflat : flat (seg.slot alts last :: segs) = alts ++ last :: flat segs := by
        simp [flat, seg.elems]
      rw [hflat] at hf ⊢
      rw [key alts halts pre fuel sidx hf]
      simp only [slot_glyphs]
      rw [slots_accept_drop]

theorem flat_head_no_con (segs : List seg) (hok : ∀ s, s ∈ segs → seg_ok s) (p : gpat)
    (rest : List gpat) (h : flat segs = p :: rest) : p.flg &&& GF_CON = 0 := by
  cases segs with
  | nil => simp [flat] at h
  | cons s t =>
    have hs := hok s (List.mem_cons_self s t)
    cases s with
    | rep q =>
      simp only [flat, seg.elems, List.singleton_append, List.cons.injEq] at h
      rw [← h.1]
      rcases hs with h1 | h1 <;> rw [h1] <;> decide
    | slot alts last =>
      cases alts with
      | nil =>
        simp only [flat, seg.elems, List.nil_append, List.singleton_append, List.cons.injEq] at h
        rw [← h.1, hs.2]
        decide
      | cons a as =>
        simp only [flat, seg.elems, List.cons_append, List.cons.injEq] at h
        rw [← h.1, hs.1 a (List.mem_cons_self a as)]
        decide

theorem rulematches_segs (fn : font) (r : grule) (segs : List seg) (src dst : List Int)
    (hfeat : feat_set fn r.feat ≠ 0) (hpats : r.pats = flat segs)
    (hok : ∀ s, s ∈ segs → seg_ok s) :
    font_rulematches fn r src dst = some (slots_accept (slot_glyphs segs) src) := by
  have hcon : con_run r.pats = [] := by
    rw [hpats]
    unfold con_run
    cases hf : flat segs with
    | nil => rfl
    | cons p rest =>
      have := flat_head_no_con segs hok p rest hf
      rw [List.takeWhile_cons]
      simp [this]
  have hncon : ncon_of r.pats = 0 := by
    unfold ncon_of
    rw [hcon]
    rfl
  have hbase := match_base_segs src segs hok [] (r.pats.length + 1) 0 (by rw [hpats]; omega)
  rw [List.nil_append, List.length_nil, List.drop_zero, ← hpats] at hbase
  have hctx : match_ctx r.pats dst 0 (r.pats.length + 1) 0 0 = some true := by
    rw [match_ctx]
    cases hf : flat segs with
    | nil => rw [hpats, hf]; rfl
    | cons p rest =>
      have := flat_head_no_con segs hok p rest hf
      rw [hpats, hf]
      simp [this]
  unfold font_rulematches
  rw [if_neg hfeat, hncon, if_neg (Nat.not_lt_zero _), hcon, List.length_nil, hbase]
  cases slots_accept (slot_glyphs segs) src with
  | false => rfl
  | true => exact hctx

theorem slots_accept_iff (slots : List (List Int)) :
    ∀ src : List Int, slots_accept slots src = true ↔
      slots.length ≤ src.length ∧
        ∀ (k : Nat) (hk : k < slots.length), ∃ g, g ∈ slots[k] ∧ src[k]? = some g := by
  induction slots with
  | nil =>
    intro src
    simp [slots_accept]
  | cons s rest ih =>
    intro src
    cases src with
    | nil => simp [slots_accept]
    | cons g src =>
      simp only [slots_accept, Bool.and_eq_true, decide_eq_true_eq, ih src, List.length_cons,
        Nat.add_le_add_iff_right]
      constructor
      · rintro ⟨hg, hlen, hall⟩
        refine ⟨hlen, ?_⟩
        intro k hk
        cases k with
        | zero => exact ⟨g, hg, List.getElem?_cons_zero⟩
        | succ k =>
          obtain ⟨g1, h1, h2⟩ := hall k (by omega)
          exact ⟨g1, h1, by rw [List.getElem?_cons_succ]; exact h2⟩
      · rintro ⟨hlen, hall⟩
        refine ⟨?_, hlen, ?_⟩
        · obtain ⟨g1, h1, h2⟩ := hall 0 (by omega)
          simp only [List.getElem?_cons_zero, Option.some.injEq] at h2
          rw [h2]
          exact h1
        · intro k hk
          obtain ⟨g1, h1, h2⟩ := hall (k + 1) (by omega)
          rw [List.getElem?_cons_succ] at h2
          exact ⟨g1, h1, h2⟩

/-- C6. Alternation in `font_rulematches`: a rule of an enabled feature made
of replacement elements and slots is accepted exactly when the slice has at
least as many glyphs as the rule has slots and input glyph `k` is the glyph of
one of the alternatives of slot `k`, for every slot; otherwise it is rejected.
For the single slot `X|Y|Z` that is: the first input glyph is `X`, `Y` or `Z`. -/
theorem rulematches_alternation (fn : font) (r : grule) (segs : List seg)
    (src dst : List Int) (hfeat : feat_set fn r.feat ≠ 0) (hpats : r.pats = flat segs)
    (hok : ∀ s, s ∈ segs → seg_ok s) :
    (font_rulematches fn r src dst = some true ↔
      (slot_glyphs segs).length ≤ src.length ∧
        ∀ (k : Nat) (hk : k < (slot_glyphs segs).length),
          ∃ g, g ∈ (slot_glyphs segs)[k] ∧ src[k]? = some g) ∧
    (font_rulematches fn r src dst ≠ some true → font_rulematches fn r src dst = some false) ∧
    (∀ x y z : gpat, segs = [seg.slot [x, y] z] →
      (font_rulematches fn r src dst = some true ↔
        src[0]? = some x.g ∨ src[0]? = some y.g ∨ src[0]? = some z.g)) := by
  rw [rulematches_segs fn r segs src dst hfeat hpats hok, ← slots_accept_iff]
  refine ⟨by simp, ?_, ?_⟩
  · cases slots_accept (slot_glyphs segs) src <;> simp
  · intro x y z hsegs
    subst hsegs
    cases src with
    | nil => simp [slot_glyphs, slots_accept]
    | cons g rest =>
      simp only [slot_glyphs, slots_accept, List.map_append, List.map_cons, List.map_nil,
        List.cons_append, List.nil_append, List.mem_cons, List.mem_singleton, List.not_mem_nil,
        or_false, Bool.and_true, Option.some.injEq, decide_eq_true_eq,
        List.getElem?_cons_zero]

theorem rulematches_alternation_witness :
    feat_set lig_font alt_rule.feat ≠ 0 ∧
    (font_rulematches lig_font alt_rule [2, 7] [] = some true ↔
      ([2, 7] : List Int)[0]? = some 1 ∨ ([2, 7] : List Int)[0]? = some 2 ∨
        ([2, 7] : List Int)[0]? = some 3) :=
  ⟨by decide,
    (rulematches_alternation lig_font alt_rule
      [seg.slot [gpat.mk 1 (GF_PAT ||| GF_ALT) 0 0 0 0, gpat.mk 2 (GF_PAT ||| GF_ALT) 0 0 0 0]
        (gpat.mk 3 GF_PAT 0 0 0 0)] [2, 7] [] (by decide) rfl
      (by
        intro s hs
        rw [List.mem_singleton] at hs
        subst hs
        refine ⟨?_, rfl⟩
        intro a ha
        simp only [List.mem_cons, List.mem_singleton, List.not_mem_nil, or_false] at ha
        rcases ha with h | h <;> rw [h])).2.2 _ _ _ rfl⟩

/-! ## C7: context -/

theorem name_scan_some (name : String) : ∀ (keys : List String) (i k : Nat),
    name_scan keys name i = some k →
      i ≤ k ∧ keys[k - i]? = some name ∧ ∀ q, q < k - i → keys[q]? ≠ some name := by
  intro keys
  induction keys with
  | nil => intro i k h; simp [name_scan] at h
  | cons s rest ih =>
    intro i k h
    rw [name_scan] at h
    split_ifs at h with he
    · simp only [Option.some.injEq] at h
      subst h
      subst he
      refine ⟨le_refl _, by simp, ?_⟩
      intro q hq
      omega
    · obtain ⟨h1, h2, h3⟩ := ih (i + 1) k h
      refine ⟨by omega, ?_, ?_⟩
      · have : k - i = (k - (i + 1)) + 1 := by omega
        rw [this, List.getElem?_cons_succ]
        exact h2
      · intro q hq
        cases q with
        | zero =>
          rw [List.getElem?_cons_zero]
          intro hc
          simp only [Option.some.injEq] at hc
          exact he hc.symm
        | succ q =>
          rw [List.getElem?_cons_succ]
          exact h3 q (by omega)

theorem name_scan_none (name : String) : ∀ (keys : List String) (i : Nat),
    name ∉ keys → name_scan keys name i = none := by
  intro keys
  induction keys with
  | nil => intro i _; rfl
  | cons s rest ih =>
    intro i h
    rw [List.mem_cons, not_or] at h
    rw [name_scan, if_neg h.1]
    exact ih (i + 1) h.2

theorem name_scan_first (name : String) : ∀ (keys : List String) (i k : Nat),
    keys[k]? = some name → (∀ q, q < k → keys[q]? ≠ some name) →
      name_scan keys name i = some (i + k) := by
  intro keys
  induction keys with
  | nil => intro i k h; simp at h
  | cons s rest ih =>
    intro i k h hfirst
    cases k with
    | zero =>
      rw [List.getElem?_cons_zero] at h
      simp only [Option.some.injEq] at h
      rw [name_scan, if_pos h.symm]
      rfl
    | succ k =>
      rw [List.getElem?_cons_succ] at h
      have hne : ¬ name = s := by
        intro he
        have := hfirst 0 (by omega)
        rw [List.getElem?_cons_zero, he] at this
        exact this rfl
      rw [name_scan, if_neg hne, ih (i + 1) k h (fun q hq => by
        have := hfirst (q + 1) (by omega)
        rw [List.getElem?_cons_succ] at this
        exact this)]
      congr 1
      omega

theorem feat_set_modify (fn : font) (k k1 : Nat) (val : Int) (f : fent)
    (hf : fn.feats[k]? = some f) :
    feat_set (font.mk fn.nglyphs fn.chars
      (fn.feats.modify (fun f => fent.mk f.feat_name val) k) fn.gsub fn.gpos) k1 =
      if k1 = k then val else feat_set fn k1 := by
  unfold feat_set
  simp only [List.getElem?_modify]
  by_cases h : k1 = k
  · subst h
    simp [hf]
  · have h1 : ¬ k = k1 := fun e => h e.symm
    simp only [h, h1, if_false]
    cases fn.feats[k1]? <;> rfl

theorem modify_names (feats : List fent) (k : Nat) (val : Int) :
    (feats.modify (fun f => fent.mk f.feat_name val) k).map fent.feat_name =
      feats.map fent.feat_name := by
  apply List.ext_getElem?
  intro n
  simp only [List.getElem?_map, List.getElem?_modify]
  cases feats[n]? with
  | none => rfl
  | some f => by_cases h : k = n <;> simp [h]

theorem font_feat_hit (fn : font) (name : String) (val : Int) (k : Nat)
    (h : name_scan (fn.feats.map fent.feat_name) name 0 = some k) :
    font_feat fn name val = (feat_set fn k, font.mk fn.nglyphs fn.chars
      (fn.feats.modify (fun f => fent.mk f.feat_name val) k) fn.gsub fn.gpos) := by
  have hfind : font_findfeat fn name false = ((k : Int), fn) := by
    unfold font_findfeat
    rw [h]
  unfold font_feat
  rw [hfind]
  simp

theorem font_feat_miss (fn : font) (name : String) (val : Int)
    (h : name_scan (fn.feats.map fent.feat_name) name 0 = none) :
    font_feat fn name val = (0, fn) := by
  unfold font_feat font_findfeat
  rw [h]
  simp

theorem name_scan_slot (fn : font) (name : String) (k : Nat)
    (h : name_scan (fn.feats.map fent.feat_name) name 0 = some k) :
    ∃ f, fn.feats[k]? = some f ∧ f.feat_name = name := by
  have := (name_scan_some name _ 0 k h).2.1
  rw [Nat.sub_zero, List.getElem?_map] at this
  cases hk : fn.feats[k]? with
  | none => rw [hk] at this; simp at this
  | some f =>
    rw [hk] at this
    simp only [Option.map_some', Option.some.injEq] at this
    exact ⟨f, rfl, this⟩

/-- C9. The function `font_feat` returns the previous state and touches nothing
else: when `name` is the name of feature `k` (the first slot with that name), it
returns the old `feat_set[k]`, stores `val` there and leaves every other flag,
the feature names and their count, both rule tables and the rest of the font as
they were; when no feature has that name it returns 0 and the font is unchanged. -/
theorem font_feat_frame (fn : font) (name : String) (val : Int) :
    (∀ (k : Nat) (f : fent), fn.feats[k]? = some f → f.feat_name = name →
      (∀ q, q < k → (fn.feats.map fent.feat_name)[q]? ≠ some name) →
        (font_feat fn name val).1 = f.feat_set ∧
        feat_set (font_feat fn name val).2 k = val ∧
        (∀ k1, k1 ≠ k → feat_set (font_feat fn name val).2 k1 = feat_set fn k1) ∧
        (font_feat fn name val).2.feats.map fent.feat_name = fn.feats.map fent.feat_name ∧
        (font_feat fn name val).2.feats.length = fn.feats.length ∧
        (font_feat fn name val).2.gsub = fn.gsub ∧
        (font_feat fn name val).2.gpos = fn.gpos ∧
        (font_feat fn name val).2.chars = fn.chars ∧
        (font_feat fn name val).2.nglyphs = fn.nglyphs) ∧
    ((∀ f, f ∈ fn.feats → f.feat_name ≠ name) → font_feat fn name val = (0, fn)) := by
  constructor
  · intro k f hk hname hfirst
    have hscan : name_scan (fn.feats.map fent.feat_name) name 0 = some k := by
      have := name_scan_first name (fn.feats.map fent.feat_name) 0 k
        (by rw [List.getElem?_map, hk]; simp [hname])
        hfirst
      rw [Nat.zero_add] at this
      exact this
    have hfind : font_findfeat fn name false = ((k : Int), fn) := by
      unfold font_findfeat
      rw [hscan]
    have hval : font_feat fn name val = (feat_set fn k, font.mk fn.nglyphs fn.chars
        (fn.feats.modify (fun f => fent.mk f.feat_name val) k) fn.gsub fn.gpos) := by
      unfold font_feat
      rw [hfind]
      simp
    rw [hval]
    refine ⟨?_, ?_, ?_, ?_, ?_, rfl, rfl, rfl, rfl⟩
    · simp [feat_set, hk]
    · rw [feat_set_modify fn k k val f hk, if_pos rfl]
    · intro k1 hk1
      rw [feat_set_modify fn k k1 val f hk, if_neg hk1]
    · exact modify_names fn.feats k val
    · simp
  · intro hnone
    have hscan : name_scan (fn.feats.map fent.feat_name) name 0 = none := by
      apply name_scan_none
      intro hmem
      rw [List.mem_map] at hmem
      obtain ⟨f, hf, hfn⟩ := hmem
      exact hnone f hf hfn
    unfold font_feat font_findfeat
    rw [hscan]
    simp

theorem font_feat_frame_witness :
    (font_feat gate_font "liga" 0).1 = 1 ∧
    feat_set (font_feat gate_font "liga" 0).2 1 = 0 ∧
    feat_set (font_feat gate_font "liga" 0).2 0 = feat_set gate_font 0 ∧
    (font_feat gate_font "liga" 0).2.gsub = gate_font.gsub ∧
    font_feat gate_font "kern" 0 = (0, gate_font) :=
  ⟨((font_feat_frame gate_font "liga" 0).1 1 (fent.mk "liga" 1) rfl rfl (by decide)).1,
    ((font_feat_frame gate_font "liga" 0).1 1 (fent.mk "liga" 1) rfl rfl (by decide)).2.1,
    ((font_feat_frame gate_font "liga" 0).1 1 (fent.mk "liga" 1) rfl rfl (by decide)).2.2.1 0
      (by decide),
    ((font_feat_frame gate_font "liga" 0).1 1 (fent.mk "liga" 1) rfl rfl
      (by decide)).2.2.2.2.2.1,
    (font_feat_frame gate_font "kern" 0).2 (by decide)⟩

/-! ## C8: feature gating -/

/-- After `font_feat(name, 0)` the matcher rejects every rule owned by the
feature of that name. -/
theorem disabled_feature_rejected (fn : font) (name : String) (k : Nat) (r : grule)
    (src dst : List Int) (h : name_scan (fn.feats.map fent.feat_name) name 0 = some k)
    (hr : r.feat = k) :
    font_rulematches (font_feat fn name 0).2 r src dst = some false := by
  obtain ⟨f, hf, _⟩ := name_scan_slot fn name k h
  rw [font_feat_hit fn name 0 k h]
  unfold font_rulematches
  rw [hr, feat_set_modify fn k k 0 f hf, if_pos rfl, if_pos rfl]

/-- Setting a feature flag to 0 and then back to the value `font_feat` returned
gives back the font, and so every later result of `font_layout`. -/
theorem font_feat_restore (fn : font) (name : String) :
    (font_feat (font_feat fn name 0).2 name (font_feat fn name 0).1).2 = fn := by
  cases h : name_scan (fn.feats.map fent.feat_name) name 0 with
  | none =>
    rw [font_feat_miss fn name 0 h]
    simp only
    rw [font_feat_miss fn name 0 h]
  | some k =>
    obtain ⟨f, hf, _⟩ := name_scan_slot fn name k h
    rw [font_feat_hit fn name 0 k h]
    have h1 : name_scan ((font.mk fn.nglyphs fn.chars
        (fn.feats.modify (fun f => fent.mk f.feat_name 0) k) fn.gsub fn.gpos).feats.map
          fent.feat_name) name 0 = some k := by
      simp only
      rw [modify_names]
      exact h
    rw [font_feat_hit _ name _ k h1]
    simp only
    have hold : feat_set fn k = f.feat_set := by
      simp [feat_set, hf]
    have hfeats : (fn.feats.modify (fun f => fent.mk f.feat_name 0) k).modify
        (fun f1 => fent.mk f1.feat_name (feat_set fn k)) k = fn.feats := by
      apply List.ext_getElem?
      intro n
      simp only [List.getElem?_modify]
      by_cases hn : k = n
      · subst hn
        rw [hf, hold]
        simp
      · simp only [hn, if_false]
        cases fn.feats[n]? <;> rfl
    rw [hfeats]

/-- C8, evaluated on `gate_font` and the run `[g0, g1]`: after
`font_feat("ss01", 0)` the layout is `[g7]`, while the same font with the rule
of `ss01` removed from its table gives `[g6, g1]`. -/
theorem gating_differs_from_removal :
    table_sorted gate_font.gsub ∧
    (∀ r, r ∈ gate_font.gsub → r.hash = grule_hash r) ∧
    font_feat gate_font "ss01" 0 =
      (1, font.mk 8 [] [fent.mk "ss01" 0, fent.mk "liga" 1] gate_font.gsub []) ∧
    font_layout 2 (font_feat gate_font "ss01" 0).2 [gptr.glyph 0, gptr.glyph 1] =
      some (layout.mk 1 [gptr.glyph 7] [some 0] [some 0] [some 0] [some 0] [some 0]) ∧
    font_layout 2 (without_feat (font_feat gate_font "ss01" 0).2 0)
        [gptr.glyph 0, gptr.glyph 1] =
      some (layout.mk 2 [gptr.glyph 6, gptr.glyph 1] [some 0, some 1] [some 0, some 0]
        [some 0, some 0] [some 0, some 0] [some 0, some 0]) := by
  decide

/-! ## C10: remapping -/

theorem dict_get_some (keys : List String) (name : String) (i : Nat)
    (h : dict_get keys name = (i : Int)) : keys[i]? = some name := by
  unfold dict_get at h
  cases hs : name_scan keys name 0 with
  | none => rw [hs] at h; simp only at h; omega
  | some k =>
    rw [hs] at h
    simp only at h
    have hk : k = i := by omega
    subst hk
    exact (name_scan_some name keys 0 k hs).2.1

theorem dict_get_cases (keys : List String) (name : String) :
    dict_get keys name = -1 ∨ ∃ i : Nat, dict_get keys name = (i : Int) := by
  unfold dict_get
  cases name_scan keys name 0 with
  | none => exact Or.inl rfl
  | some k => exact Or.inr ⟨k, rfl⟩

theorem cdict_modify (fn : font) (i : Nat) (g : gptr) :
    cdict (font.mk fn.nglyphs (fn.chars.modify (fun e => cent.mk e.c e.g g) i)
      fn.feats fn.gsub fn.gpos) = cdict fn := by
  unfold cdict
  apply List.ext_getElem?
  intro n
  simp only [List.getElem?_map, List.getElem?_modify]
  cases fn.chars[n]? with
  | none => rfl
  | some e => by_cases h : i = n <;> simp [h]

theorem font_map_known (N : Nat) (fn : font) (name : String) (g : gptr) (i : Nat)
    (hi : dict_get (cdict fn) name = (i : Int)) (hg : g = gptr.null ∨ owned fn g = true) :
    font_map N fn name g = (0, remapped fn i g) := by
  unfold font_map
  have h1 : ¬ (g ≠ gptr.null ∧ owned fn g = false) := by
    rcases hg with h | h
    · simp [h]
    · simp [h]
  have h2 : ¬ ((i : Int) < 0) := by omega
  rw [if_neg h1, hi, if_neg h2, Int.toNat_ofNat]
  rfl

theorem remapped_dict (fn : font) (i : Nat) (g : gptr) (name : String) :
    dict_get (cdict (remapped fn i g)) name = dict_get (cdict fn) name := by
  unfold remapped
  rw [cdict_modify]

theorem remapped_get_self (fn : font) (i : Nat) (g : gptr) (e : cent)
    (he : fn.chars[i]? = some e) :
    (remapped fn i g).chars[i]? = some (cent.mk e.c e.g g) := by
  unfold remapped
  simp [List.getElem?_modify, he]

theorem remapped_get_ne (fn : font) (i j : Nat) (g : gptr) (h : i ≠ j) :
    (remapped fn i g).chars[j]? = fn.chars[j]? := by
  unfold remapped
  simp only [List.getElem?_modify, h, if_false]
  cases fn.chars[j]? <;> rfl

theorem font_find_remapped_other (fn : font) (i : Nat) (g : gptr) (name other : String)
    (hi : dict_get (cdict fn) name = (i : Int)) (hne : other ≠ name) :
    font_find (remapped fn i g) other = font_find fn other := by
  unfold font_find
  rw [remapped_dict]
  rcases dict_get_cases (cdict fn) other with h | ⟨j, hj⟩
  · rw [h]; rfl
  · have hij : i ≠ j := by
      intro e
      subst e
      have h1 := dict_get_some _ _ _ hi
      have h2 := dict_get_some _ _ _ hj
      rw [h1] at h2
      simp only [Option.some.injEq] at h2
      exact hne h2.symm
    rw [hj, Int.toNat_ofNat, remapped_get_ne fn i j g hij]

/-- C10. Remap round trip: for a name of the charset, in slot `i` with the
charset binding `g[i]`, and a glyph `g` of the same font, `font_map(name, g)`
succeeds, `font_find(name)` then returns `g` and `font_mapped(name)` is nonzero;
after `font_map(name, NULL)` `font_find(name)` returns `g[i]` again and
`font_mapped(name)` is zero; `font_find` of every other name never changes. -/
theorem font_map_round_trip (NGLYPHS : Nat) (fn : font) (name : String) (g : gptr)
    (i : Nat) (e : cent) (hi : dict_get (cdict fn) name = (i : Int))
    (he : fn.chars[i]? = some e) (hg : owned fn g = true) :
    (font_map NGLYPHS fn name g).1 = 0 ∧
    font_find (font_map NGLYPHS fn name g).2 name = g ∧
    font_mapped (font_map NGLYPHS fn name g).2 name ≠ 0 ∧
    (font_map NGLYPHS (font_map NGLYPHS fn name g).2 name gptr.null).1 = 0 ∧
    font_find (font_map NGLYPHS (font_map NGLYPHS fn name g).2 name gptr.null).2 name = e.g ∧
    font_mapped (font_map NGLYPHS (font_map NGLYPHS fn name g).2 name gptr.null).2 name = 0 ∧
    (∀ other, other ≠ name →
      font_find (font_map NGLYPHS fn name g).2 other = font_find fn other ∧
      font_find (font_map NGLYPHS (font_map NGLYPHS fn name g).2 name gptr.null).2 other =
        font_find fn other) := by
  have hgnn : g ≠ gptr.null := by
    intro h; rw [h] at hg; simp [owned] at hg
  have hm1 := font_map_known NGLYPHS fn name g i hi (Or.inr hg)
  have hi1 : dict_get (cdict (remapped fn i g)) name = (i : Int) := by
    rw [remapped_dict]; exact hi
  have hm2 := font_map_known NGLYPHS (remapped fn i g) name gptr.null i hi1 (Or.inl rfl)
  have hget1 := remapped_get_self fn i g e he
  have hget2 := remapped_get_self (remapped fn i g) i gptr.null _ hget1
  have hi2 : dict_get (cdict (remapped (remapped fn i g) i gptr.null)) name = (i : Int) := by
    rw [remapped_dict]; exact hi1
  have hnn : ¬ ((i : Int) < 0) := by omega
  rw [hm1]
  simp only
  rw [hm2]
  simp only
  refine ⟨trivial, ?_, ?_, trivial, ?_, ?_, ?_⟩
  · unfold font_find
    rw [hi1, if_neg hnn, Int.toNat_ofNat, hget1]
    simp [hgnn]
  · unfold font_mapped
    rw [hi1, if_neg hnn, Int.toNat_ofNat, hget1]
    simp [hgnn]
  · unfold font_find
    rw [hi2, if_neg hnn, Int.toNat_ofNat, hget2]
    simp
  · unfold font_mapped
    rw [hi2, if_neg hnn, Int.toNat_ofNat, hget2]
    simp
  · intro other hne
    have h1 := font_find_remapped_other fn i g name other hi hne
    have h2 := font_find_remapped_other (remapped fn i g) i gptr.null name other hi1 hne
    exact ⟨h1, h2.trans h1⟩

theorem font_map_round_trip_witness :
    owned map_font (gptr.glyph 0) = true ∧
    font_find (font_map 4 map_font "b" (gptr.glyph 0)).2 "b" = gptr.glyph 0 ∧
    font_find (font_map 4 (font_map 4 map_font "b" (gptr.glyph 0)).2 "b" gptr.null).2 "b" =
      gptr.glyph 1 :=
  ⟨by decide,
    (font_map_round_trip 4 map_font "b" (gptr.glyph 0) 1
      (cent.mk "b" (gptr.glyph 1) gptr.null) (by decide) (by decide) (by decide)).2.1,
    (font_map_round_trip 4 map_font "b" (gptr.glyph 0) 1
      (cent.mk "b" (gptr.glyph 1) gptr.null) (by decide) (by decide) (by decide)).2.2.2.2.1⟩

/-! ## C11: `font_map` fails without a trace -/

theorem name_scan_mem (name : String) : ∀ (keys : List String) (i : Nat),
    name ∈ keys → ∃ k, name_scan keys name i = some k := by
  intro keys
  induction keys with
  | nil => intro i h; simp at h
  | cons s rest ih =>
    intro i h
    rw [name_scan]
    by_cases he : name = s
    · exact ⟨i, by rw [if_pos he]⟩
    · rw [if_neg he]
      rw [List.mem_cons] at h
      rcases h with h | h
      · exact absurd h he
      · exact ih (i + 1) h

theorem dict_get_neg_iff (keys : List String) (name : String) :
    dict_get keys name < 0 ↔ name ∉ keys := by
  unfold dict_get
  constructor
  · intro h hmem
    obtain ⟨k, hk⟩ := name_scan_mem name keys 0 hmem
    rw [hk] at h
    simp only at h
    omega
  · intro h
    rw [name_scan_none name keys 0 h]
    decide

/-- C11. The function `font_map` fails atomically: it returns nonzero exactly
when `g` is not `NULL` and its `font` field is not this font, or `name` is not
in the character table and the table holds `NGLYPHS` names; a call that returns
nonzero leaves the font as it was, and every other call returns 0. -/
theorem font_map_atomic (NGLYPHS : Nat) (fn : font) (name : String) (g : gptr)
    (hcap : fn.chars.length ≤ NGLYPHS) :
    ((font_map NGLYPHS fn name g).1 ≠ 0 ↔
      (g ≠ gptr.null ∧ owned fn g = false) ∨
        (name ∉ cdict fn ∧ fn.chars.length = NGLYPHS)) ∧
    ((font_map NGLYPHS fn name g).1 ≠ 0 → (font_map NGLYPHS fn name g).2 = fn) ∧
    ((font_map NGLYPHS fn name g).1 = 0 ∨ (font_map NGLYPHS fn name g).1 = 1) := by
  unfold font_map
  by_cases h1 : g ≠ gptr.null ∧ owned fn g = false
  · rw [if_pos h1]
    exact ⟨⟨fun _ => Or.inl h1, fun _ => by simp⟩, fun _ => rfl, Or.inr rfl⟩
  · rw [if_neg h1]
    by_cases h2 : dict_get (cdict fn) name < 0
    · rw [if_pos h2]
      have hnm := (dict_get_neg_iff _ _).mp h2
      by_cases h3 : fn.chars.length ≥ NGLYPHS
      · rw [if_pos h3]
        exact ⟨⟨fun _ => Or.inr ⟨hnm, by omega⟩, fun _ => by simp⟩, fun _ => rfl, Or.inr rfl⟩
      · rw [if_neg h3]
        refine ⟨⟨fun h => absurd rfl h, ?_⟩, fun h => absurd rfl h, Or.inl rfl⟩
        rintro (h | ⟨_, h⟩)
        · exact absurd h h1
        · omega
    · rw [if_neg h2]
      have hm : ¬ name ∉ cdict fn := fun h => h2 ((dict_get_neg_iff _ _).mpr h)
      refine ⟨⟨fun h => absurd rfl h, ?_⟩, fun h => absurd rfl h, Or.inl rfl⟩
      rintro (h | ⟨h, _⟩)
      · exact absurd h h1
      · exact absurd h hm

theorem font_map_atomic_witness :
    map_font.chars.length ≤ 2 ∧
    ((font_map 2 map_font "c" (gptr.glyph 0)).1 ≠ 0 ↔
      (gptr.glyph 0 ≠ gptr.null ∧ owned map_font (gptr.glyph 0) = false) ∨
        ("c" ∉ cdict map_font ∧ map_font.chars.length = 2)) ∧
    ((font_map 2 map_font "c" (gptr.glyph 0)).1 ≠ 0 →
      (font_map 2 map_font "c" (gptr.glyph 0)).2 = map_font) :=
  ⟨by decide, (font_map_atomic 2 map_font "c" (gptr.glyph 0) (by decide)).1,
    (font_map_atomic 2 map_font "c" (gptr.glyph 0) (by decide)).2.1⟩

/-! ## C12: capacity of the rule tables -/

theorem rule_len_fits (len : Int) (h0 : 0 ≤ len) (h1 : len ≤ 32767) : rule_len len = len := by
  unfold rule_len
  omega

theorem font_gpos_appends :
    font_gpos 1 lig_font "kern" 2 =
      some (some 0, font.mk 3 [] [fent.mk "liga" 1, fent.mk "kern" 0] [lig_rule]
        [grule.mk [gpat.mk 0 0 0 0 0 0, gpat.mk 0 0 0 0 0 0] 1 0 0]) := by
  decide

/-! ## C13: the feature table has no capacity test -/

theorem findfeat_new (fn : font) (name : String)
    (h : name ∉ fn.feats.map fent.feat_name) :
    font_findfeat fn name true =
      ((fn.feats.length : Int),
        font.mk fn.nglyphs fn.chars (fn.feats ++ [fent.mk name 0]) fn.gsub fn.gpos) := by
  unfold font_findfeat
  rw [name_scan_none name _ 0 h]
  rfl

theorem register_feats_names (NGRULES : Nat) : ∀ (names : List String) (fn : font),
    names.Nodup → (∀ s, s ∈ names → s ∉ fn.feats.map fent.feat_name) →
      fn.gsub.length + names.length ≤ NGRULES →
        (register_feats NGRULES fn names).feats.map fent.feat_name =
          fn.feats.map fent.feat_name ++ names ∧
        (register_feats NGRULES fn names).gsub.length = fn.gsub.length + names.length := by
  intro names
  induction names with
  | nil =>
    intro fn _ _ _
    simp [register_feats]
  | cons s rest ih =>
    intro fn hnd hfresh hcap
    rw [List.nodup_cons] at hnd
    have hs := hfresh s (List.mem_cons_self s rest)
    have hlt : ¬ fn.gsub.length ≥ NGRULES := by
      simp only [List.length_cons] at hcap
      omega
    have hstep : font_gsub NGRULES fn s 0 =
        some (some fn.gsub.length,
          font.mk fn.nglyphs fn.chars (fn.feats ++ [fent.mk s 0])
            (fn.gsub ++ [grule.mk (font_gpat 0) fn.feats.length 0 0]) fn.gpos) := by
      unfold font_gsub
      rw [if_neg (by decide), if_neg hlt, if_neg (by decide), findfeat_new fn s hs]
      simp
    rw [register_feats, hstep]
    simp only []
    have := ih (font.mk fn.nglyphs fn.chars (fn.feats ++ [fent.mk s 0])
        (fn.gsub ++ [grule.mk (font_gpat 0) fn.feats.length 0 0]) fn.gpos) hnd.2
      (by
        intro t ht
        simp only [List.map_append, List.map_cons, List.map_nil, List.mem_append,
          List.mem_singleton, not_or]
        refine ⟨hfresh t (List.mem_cons_of_mem s ht), ?_⟩
        intro hts
        rw [hts] at ht
        exact hnd.1 ht)
      (by simp at hcap ⊢; omega)
    rw [this.1, this.2]
    constructor
    · simp
    · simp
      omega

/-- C13, for registrations with pairwise distinct feature names on the empty
font, as many as the rule table takes: every name gets a feature slot of its
own.  The feature count is the number of names, whatever `NFEATS` is, because
`font_findfeat` compares nothing with `NFEATS`: with `NFEATS + 1` names the
calls end with `feat_n = NFEATS + 1`, the last name stored in slot `NFEATS`
and every registration stored in the rule table. -/
theorem feat_count_unbounded (NGRULES NFEATS : Nat) (names : List String)
    (hnd : names.Nodup) (hlen : names.length = NFEATS + 1) (hcap : NFEATS < NGRULES) :
    (register_feats NGRULES empty_font names).feats.length = NFEATS + 1 ∧
    ((register_feats NGRULES empty_font names).feats.map fent.feat_name)[NFEATS]? =
      names[NFEATS]? ∧
    (register_feats NGRULES empty_font names).gsub.length = NFEATS + 1 := by
  have h := register_feats_names NGRULES names empty_font hnd
    (fun s _ => by simp [empty_font]) (by simp [empty_font]; omega)
  have hl : (register_feats NGRULES empty_font names).feats.length = names.length := by
    have := congrArg List.length h.1
    simpa [empty_font] using this
  refine ⟨by rw [hl, hlen], ?_, by rw [h.2, hlen]; simp [empty_font]⟩
  rw [h.1]
  simp [empty_font]

theorem feat_count_unbounded_witness :
    (register_feats 4 empty_font ["liga", "kern", "ss01"]).feats.length = 2 + 1 ∧
    ((register_feats 4 empty_font ["liga", "kern", "ss01"]).feats.map fent.feat_name)[2]? =
      ["liga", "kern", "ss01"][2]? ∧
    (register_feats 4 empty_font ["liga", "kern", "ss01"]).gsub.length = 2 + 1 :=
  feat_count_unbounded 4 2 ["liga", "kern", "ss01"] (by decide) (by decide) (by decide)

/-! ## C14: `grule_find` -/

/-- Every rule from the index the binary search ends at has a hash that is not
smaller than the target, and the rounds given are enough. -/
theorem grule_find_loop_ge (rules : List grule) (hs : table_sorted rules) (t : Int) :
    ∀ (fuel l h : Nat), l ≤ h → h ≤ rules.length → h - l ≤ fuel →
      (∀ q, h ≤ q → q < rules.length → t ≤ hash_at rules q) →
        ∀ q, grule_find_loop rules t fuel l h ≤ q → q < rules.length → t ≤ hash_at rules q := by
  intro fuel
  induction fuel with
  | zero =>
    intro l h hlh _ hf hinv q hq hqn
    have : l = h := by omega
    subst this
    exact hinv q hq hqn
  | succ fuel ih =>
    intro l h hlh hn hf hinv q hq hqn
    unfold grule_find_loop at hq
    split_ifs at hq with hlt hge
    · refine ih l ((l + h) / 2) (by omega) (by omega) (by omega) ?_ q hq hqn
      intro q1 hq1 hq1n
      have := sorted_hash_at_le rules hs ((l + h) / 2) q1 hq1 hq1n
      omega
    · exact ih ((l + h) / 2 + 1) h (by omega) hn (by omega) hinv q hq hqn
    · have : l = h := by omega
      subst this
      exact hinv q hq hqn

/-- On a sorted table that holds a rule with the target hash, `grule_find`
returns the first index of that hash. -/
theorem grule_find_found (rules : List grule) (hs : table_sorted rules) (t : Int) (q0 : Nat)
    (r0 : grule) (hq0 : rules[q0]? = some r0) (hr0 : r0.hash = t) :
    ∃ l : Nat, grule_find rules t = (l : Int) ∧ l ≤ q0 ∧ hash_at rules l = t ∧
      ∀ q, q < l → hash_at rules q < t := by
  obtain ⟨hq0n, _⟩ := List.getElem?_eq_some_iff.mp hq0
  have hh0 : hash_at rules q0 = t := by
    unfold hash_at; rw [hq0]; exact hr0
  have hlow := grule_find_loop_lt rules hs t rules.length 0 rules.length (le_refl _)
    (fun q hq => absurd hq (Nat.not_lt_zero q))
  have hup := grule_find_loop_ge rules hs t rules.length 0 rules.length (Nat.zero_le _)
    (le_refl _) (by omega) (fun q h1 h2 => by omega)
  have hle : grule_find_loop rules t rules.length 0 rules.length ≤ q0 := by
    by_contra hc
    have := hlow q0 (by omega)
    omega
  have heq : hash_at rules (grule_find_loop rules t rules.length 0 rules.length) = t := by
    have h1 := hup _ (le_refl _) (by omega)
    have h2 := sorted_hash_at_le rules hs _ q0 hle hq0n
    omega
  refine ⟨grule_find_loop rules t rules.length 0 rules.length, ?_, hle, heq, hlow⟩
  unfold grule_find
  simp only [heq, if_true]

/-- When no rule has the target hash and the target is not 0, `grule_find`
returns -1. -/
theorem grule_find_absent (rules : List grule) (t : Int)
    (hnone : ∀ r, r ∈ rules → r.hash ≠ t) (ht : t ≠ 0) : grule_find rules t = -1 := by
  unfold grule_find
  simp only
  rw [if_neg]
  intro h
  unfold hash_at at h
  cases hk : rules[grule_find_loop rules t rules.length 0 rules.length]? with
  | none => rw [hk] at h; exact ht h.symm
  | some r => rw [hk] at h; exact hnone r (List.getElem?_mem hk) h

/-- C14, evaluated on the empty table and the target `GHASH(-1, -1) = 0`, the
first key `font_findrule` looks up: the loop ends with `l = 0 = n`, the code
reads `rules[0].hash`, which is the 0 of the unused slot, and returns the
index 0, not the -1 of a search that finds nothing. -/
theorem grule_find_empty_table :
    table_sorted [] ∧ GHASH (-1) (-1) = 0 ∧ grule_find [] (GHASH (-1) (-1)) = 0 := by
  decide

/-! ## C15: the table after the build step -/

theorem grulecmp_neg_iff (r1 r2 : grule) :
    grulecmp r1 r2 < 0 ↔ r1.hash < r2.hash ∨ (r1.hash = r2.hash ∧ r1.pos < r2.pos) := by
  unfold grulecmp
  split_ifs with h
  · constructor
    · intro h1; exact Or.inr ⟨h, by omega⟩
    · rintro (h1 | ⟨_, h1⟩) <;> omega
  · constructor
    · intro h1; exact Or.inl (by omega)
    · rintro (h1 | ⟨h1, _⟩)
      · omega
      · exact absurd h1 h

theorem grulecmp_range (r1 r2 : grule) (h1 : 0 ≤ r1.hash ∧ r1.hash < 2 ^ 31)
    (h2 : 0 ≤ r2.hash ∧ r2.hash < 2 ^ 31) (p1 : -2 ^ 15 ≤ r1.pos ∧ r1.pos < 2 ^ 15)
    (p2 : -2 ^ 15 ≤ r2.pos ∧ r2.pos < 2 ^ 15) :
    -2 ^ 31 ≤ grulecmp r1 r2 ∧ grulecmp r1 r2 < 2 ^ 31 := by
  unfold grulecmp
  norm_num at h1 h2 p1 p2 ⊢
  split_ifs <;> omega

theorem stamp_from_get (rules : List grule) : ∀ (i : Nat) (r : grule),
    r ∈ stamp_from i rules → r.hash = grule_hash r ∧
      ∃ k, r.pos = Int.ofNat (i + k) ∧ rules[k]?.map grule.pats = some r.pats ∧
        rules[k]?.map grule.feat = some r.feat := by
  induction rules with
  | nil => intro i r h; simp [stamp_from] at h
  | cons a t ih =>
    intro i r h
    rw [stamp_from, List.mem_cons] at h
    rcases h with h | h
    · subst h
      exact ⟨rfl, 0, rfl, by simp, by simp⟩
    · obtain ⟨hh, k, hk, hp, hf⟩ := ih (i + 1) r h
      refine ⟨hh, k + 1, ?_, by simpa using hp, by simpa using hf⟩
      rw [hk]
      congr 1
      omega

theorem stamp_from_pos_lt (rules : List grule) : ∀ (i : Nat),
    (stamp_from i rules).Pairwise (fun a b => a.pos ≠ b.pos) := by
  induction rules with
  | nil => intro i; simp [stamp_from]
  | cons a t ih =>
    intro i
    rw [stamp_from, List.pairwise_cons]
    refine ⟨?_, ih (i + 1)⟩
    intro b hb
    obtain ⟨_, k, hk, _, _⟩ := stamp_from_get t (i + 1) b hb
    simp only
    rw [hk]
    intro he
    have := Int.ofNat_inj.mp he
    omega

theorem sorted_strict (l : List grule) (hs : table_sorted l)
    (hne : l.Pairwise (fun a b => a.pos ≠ b.pos)) :
    ∀ (i j : Nat) (hi : i < l.length) (hj : j < l.length), i < j →
      l[i].hash < l[j].hash ∨ (l[i].hash = l[j].hash ∧ l[i].pos < l[j].pos) := by
  intro i j hi hj hij
  obtain ⟨hc, hn⟩ := List.pairwise_iff_getElem.mp (hs.and hne) i j hi hj hij
  apply (grulecmp_neg_iff _ _).mp
  have hc0 : grulecmp l[i] l[j] ≤ 0 := hc
  have hc1 : grulecmp l[i] l[j] ≠ 0 := by
    unfold grulecmp
    split_ifs with he
    · omega
    · omega
  omega

/-- C15. Sorted-table invariant after build: with `pos` the declaration index,
`hash` from `grule_hash` and a `qsort` that returns a permutation ordered by
`grulecmp`, the table is a permutation of the declared rules in which for
`i < j` the hash of rule `i` is smaller, or equal with a smaller `pos`.  The
value of `grulecmp` is negative exactly for the lexicographically smaller pair,
and stays inside the `int` range for non-negative hashes. -/
theorem build_table_sorted (qsort : List grule → List grule)
    (hperm : ∀ l, (qsort l).Perm l) (hsort : ∀ l, table_sorted (qsort l))
    (rules : List grule) :
    (build_table qsort rules).Perm (stamp_from 0 rules) ∧
    (∀ r, r ∈ build_table qsort rules → r.hash = grule_hash r ∧
      ∃ k : Nat, r.pos = Int.ofNat k ∧ rules[k]?.map grule.pats = some r.pats ∧
        rules[k]?.map grule.feat = some r.feat) ∧
    (∀ (i j : Nat) (hi : i < (build_table qsort rules).length)
      (hj : j < (build_table qsort rules).length), i < j →
        (build_table qsort rules)[i].hash < (build_table qsort rules)[j].hash ∨
          ((build_table qsort rules)[i].hash = (build_table qsort rules)[j].hash ∧
            (build_table qsort rules)[i].pos < (build_table qsort rules)[j].pos)) ∧
    (∀ r1 r2 : grule,
      (grulecmp r1 r2 < 0 ↔ r1.hash < r2.hash ∨ (r1.hash = r2.hash ∧ r1.pos < r2.pos)) ∧
      (0 ≤ r1.hash ∧ r1.hash < 2 ^ 31 → 0 ≤ r2.hash ∧ r2.hash < 2 ^ 31 →
        -2 ^ 15 ≤ r1.pos ∧ r1.pos < 2 ^ 15 → -2 ^ 15 ≤ r2.pos ∧ r2.pos < 2 ^ 15 →
          -2 ^ 31 ≤ grulecmp r1 r2 ∧ grulecmp r1 r2 < 2 ^ 31)) := by
  have hp : (build_table qsort rules).Perm (stamp_from 0 rules) := hperm _
  refine ⟨hp, ?_, ?_, fun r1 r2 => ⟨grulecmp_neg_iff r1 r2, grulecmp_range r1 r2⟩⟩
  · intro r hr
    obtain ⟨hh, k, hk, h1, h2⟩ := stamp_from_get rules 0 r (hp.mem_iff.mp hr)
    exact ⟨hh, k, by rw [hk, Nat.zero_add], h1, h2⟩
  · have hne : (build_table qsort rules).Pairwise (fun a b => a.pos ≠ b.pos) :=
      hp.symm.pairwise (stamp_from_pos_lt rules 0) (fun h => fun e => h e.symm)
    exact sorted_strict _ (hsort (stamp_from 0 rules)) hne

theorem isort_contract :
    (∀ l, (isort l).Perm l) ∧ (∀ l, table_sorted (isort l)) := by
  constructor
  · intro l
    exact List.perm_insertionSort grule_le l
  · intro l
    have htot : IsTotal grule grule_le := ⟨fun a b => by
      unfold grule_le grulecmp
      split_ifs with h1 h2 h2
      · omega
      · exact absurd h1.symm h2
      · exact absurd h2.symm h1
      · omega⟩
    have htr : IsTrans grule grule_le := ⟨fun a b c => by
      unfold grule_le grulecmp
      intro h1 h2
      split_ifs at h1 h2 ⊢ <;> omega⟩
    exact @List.sorted_insertionSort grule grule_le _ htot htr l

theorem build_table_sorted_witness :
    build_table isort [late_rule, early_rule] =
      [grule.mk early_rule.pats 0 1 1, grule.mk late_rule.pats 0 0 131073] ∧
    (build_table isort [late_rule, early_rule]).Perm (stamp_from 0 [late_rule, early_rule]) :=
  ⟨by decide,
    (build_table_sorted isort isort_contract.1 isort_contract.2 [late_rule, early_rule]).1⟩

/-! ## C16: the hash index -/

theorem skip_alt_here (pre : List gpat) (p : gpat) (rest : List gpat)
    (hp : p.flg &&& GF_ALT = 0) : skip_alt (pre ++ p :: rest) pre.length = some pre.length := by
  have := skip_alt_run pre [] p rest (fun a ha => absurd ha (List.not_mem_nil a)) hp
  simpa using this

/-- The base loop, entered before replacement elements that are followed by a
pattern element `p`: if the rule is matched then `p` holds the next input glyph
and the loop goes on behind `p` with one more glyph matched. -/
theorem match_base_reps (src : List Int) (p : gpat) (rest : List gpat)
    (hp : p.flg = GF_PAT) :
    ∀ (reps : List gpat), (∀ a, a ∈ reps → a.flg = GF_REP) →
      ∀ (pre : List gpat) (fuel sidx : Nat),
        match_base (pre ++ (reps ++ p :: rest)) src fuel pre.length sidx = some true →
          src[sidx]? = some p.g ∧
            ∃ fuel1, match_base (pre ++ (reps ++ p :: rest)) src fuel1
              (pre.length + reps.length + 1) (sidx + 1) = some true := by
  have hprep : ¬ (p.flg &&& GF_REP ≠ 0) := by rw [hp]; decide
  have hpalt : p.flg &&& GF_ALT = 0 := by rw [hp]; decide
  intro reps
  induction reps with
  | nil =>
    intro _ pre fuel sidx h
    cases fuel with
    | zero => simp [match_base] at h
    | succ fuel =>
      rw [List.nil_append, match_base, getElem?_mid] at h
      simp only [] at h
      rw [if_neg hprep] at h
      by_cases hm : src[sidx]? = some p.g
      · rw [if_pos hm, skip_alt_here pre p rest hpalt] at h
        exact ⟨hm, fuel, by simpa using h⟩
      · rw [if_neg hm, if_pos hpalt] at h
        simp at h
  | cons a reps ih =>
    intro hreps pre fuel sidx h
    have ha : a.flg &&& GF_REP ≠ 0 := by
      rw [hreps a (List.mem_cons_self a reps)]; decide
    cases fuel with
    | zero => simp [match_base] at h
    | succ fuel =>
      rw [List.cons_append, match_base, getElem?_mid] at h
      simp only [] at h
      rw [if_pos ha] at h
      have hcat : pre ++ a :: (reps ++ p :: rest) = (pre ++ [a]) ++ (reps ++ p :: rest) := by
        simp
      rw [hcat] at h
      have hl : pre.length + 1 = (pre ++ [a]).length := by simp
      rw [hl] at h
      obtain ⟨h1, f1, h2⟩ := ih (fun b hb => hreps b (List.mem_cons_of_mem a hb))
        (pre ++ [a]) fuel sidx h
      refine ⟨h1, f1, ?_⟩
      rw [List.cons_append, hcat]
      have hl2 : pre.length + (a :: reps).length + 1 = (pre ++ [a]).length + reps.length + 1 := by
        simp; omega
      rw [hl2]
      exact h2

theorem rulematches_base (fn : font) (r : grule) (src dst : List Int)
    (h : font_rulematches fn r src dst = some true) :
    match_base r.pats src (r.pats.length + 1) (con_run r.pats).length 0 = some true := by
  unfold font_rulematches at h
  by_cases h1 : feat_set fn r.feat = 0
  · rw [if_pos h1] at h; simp at h
  · rw [if_neg h1] at h
    by_cases h2 : dst.length < ncon_of r.pats
    · rw [if_pos h2] at h; simp at h
    · rw [if_neg h2] at h
      cases hb : match_base r.pats src (r.pats.length + 1) (con_run r.pats).length 0 with
      | none => rw [hb] at h; simp at h
      | some b =>
        cases b with
        | false => rw [hb] at h; simp at h
        | true => rfl

theorem split_reps (pats : List gpat) :
    pats = pats.takeWhile (fun p => decide (p.flg = GF_REP)) ++
      pats.dropWhile (fun p => decide (p.flg = GF_REP)) ∧
    ∀ a, a ∈ pats.takeWhile (fun p => decide (p.flg = GF_REP)) → a.flg = GF_REP := by
  refine ⟨(List.takeWhile_append_dropWhile _ _).symm, ?_⟩
  intro a ha
  have := List.mem_takeWhile_imp ha
  simpa using this

theorem con_run_reps (reps : List gpat) (p : gpat) (rest : List gpat)
    (hreps : ∀ a, a ∈ reps → a.flg = GF_REP) (hp : p.flg = GF_PAT) :
    con_run (reps ++ p :: rest) = [] := by
  unfold con_run
  cases reps with
  | nil =>
    rw [List.nil_append, List.takeWhile_cons, hp]
    simp +decide
  | cons a t =>
    rw [List.cons_append, List.takeWhile_cons, hreps a (List.mem_cons_self a t)]
    simp +decide

/-- An accepted rule has one of the keys that are looked up. -/
theorem accepted_probed (fn : font) (r : grule) (src dst : List Int)
    (hh : r.hash = grule_hash r) (hacc : font_rulematches fn r src dst = some true) :
    probed src r.hash := by
  have hbase := rulematches_base fn r src dst hacc
  obtain ⟨hsplit, hreps⟩ := split_reps r.pats
  rw [hh]
  unfold grule_hash
  cases hd : r.pats.dropWhile (fun p => decide (p.flg = GF_REP)) with
  | nil =>
    refine ⟨0, by decide, Nat.zero_le _, ?_⟩
    simp [hash_glyph, probe_hashes]
  | cons p t =>
    by_cases hp : p.flg = GF_PAT
    · rw [hd] at hsplit
      have hcon := con_run_reps _ p t hreps hp
      rw [← hsplit] at hcon
      rw [hcon] at hbase
      have hb1 : match_base ([] ++ (r.pats.takeWhile (fun p => decide (p.flg = GF_REP)) ++
          p :: t)) src (r.pats.length + 1) ([] : List gpat).length 0 = some true := by
        rw [List.nil_append, ← hsplit]
        exact hbase
      obtain ⟨hs0, f1, hnext⟩ := match_base_reps src p t hp _ hreps [] _ 0 hb1
      have hlen1 : 1 ≤ src.length := by
        obtain ⟨hlt, _⟩ := List.getElem?_eq_some_iff.mp hs0
        omega
      have hg0 : src.getD 0 0 = p.g := by
        rw [List.getD_eq_getElem?_getD, hs0]; rfl
      simp only [hash_glyph, hp, if_true]
      by_cases hneg : p.g < 0
      · refine ⟨1, by decide, hlen1, ?_⟩
        simp [hneg, probe_hashes, hs0]
      · rw [if_neg hneg]
        obtain ⟨hsplit2, hreps2⟩ := split_reps t
        cases hd2 : t.dropWhile (fun p => decide (p.flg = GF_REP)) with
        | nil =>
          refine ⟨1, by decide, hlen1, ?_⟩
          simp [probe_hashes, hs0]
        | cons q t2 =>
          by_cases hq : q.flg = GF_PAT
          · rw [hd2] at hsplit2
            have hcat : [] ++ (r.pats.takeWhile (fun p => decide (p.flg = GF_REP)) ++ p :: t) =
                (r.pats.takeWhile (fun p => decide (p.flg = GF_REP)) ++ [p]) ++
                  (t.takeWhile (fun p => decide (p.flg = GF_REP)) ++ q :: t2) := by
              rw [← hsplit2]; simp
            rw [hcat] at hnext
            have hl : ([] : List gpat).length +
                (r.pats.takeWhile (fun p => decide (p.flg = GF_REP))).length + 1 =
                (r.pats.takeWhile (fun p => decide (p.flg = GF_REP)) ++ [p]).length := by
              simp
            rw [hl] at hnext
            obtain ⟨hs1, _, _⟩ := match_base_reps src q t2 hq _ hreps2 _ f1 1 hnext
            have hlen2 : 2 ≤ src.length := by
              obtain ⟨hlt, _⟩ := List.getElem?_eq_some_iff.mp hs1
              omega
            refine ⟨2, by decide, hlen2, ?_⟩
            simp [hash_glyph, hq, probe_hashes, hs0, hs1]
          · refine ⟨1, by decide, hlen1, ?_⟩
            simp [hash_glyph, hq, probe_hashes, hs0]
    · refine ⟨0, by decide, Nat.zero_le _, ?_⟩
      simp [hash_glyph, hp, probe_hashes]

/-- When the matcher is defined on every rule of the table the loop returns,
within the rounds the cursors have left. -/
theorem findrule_loop_total (fn : font) (rules : List grule) (hash : List Int)
    (src dst : List Int)
    (hdef : ∀ r, r ∈ rules → font_rulematches fn r src dst ≠ none) :
    ∀ (fuel : Nat) (idx : List Int), rounds_left rules.length idx < fuel →
      font_findrule_loop fn rules hash src dst fuel idx ≠ none := by
  intro fuel
  induction fuel with
  | zero => intro idx h; omega
  | succ fuel ih =>
    intro idx h
    rcases findrule_loop_step fn rules hash src dst fuel idx with
      ⟨_, _, hn⟩ | ⟨i, r1, hi, hok, hr, _, hstep⟩
    · rw [hn]; simp
    · rw [hstep]
      cases hm : font_rulematches fn r1 src dst with
      | none => exact absurd hm (hdef r1 (List.getElem?_mem hr))
      | some b =>
        cases b with
        | true => simp
        | false =>
          have hlen := cur_ok_lt_length rules hash idx i hok
          rw [cur_ok_iff] at hok
          have := rounds_left_set rules.length idx i hi hlen hok.1 hok.2.1
          exact ih _ (by omega)

theorem findrule_total (fn : font) (rules : List grule) (src dst : List Int)
    (hdef : ∀ r, r ∈ rules → font_rulematches fn r src dst ≠ none) :
    font_findrule fn rules src dst ≠ none :=
  findrule_loop_total fn rules _ src dst hdef _ _ (probe_cursors_rounds rules src)

/-- While the cursor of a bucket stands at or before an accepted rule of that
bucket, the loop does not return `NULL`. -/
theorem findrule_loop_finds (fn : font) (rules : List grule) (hs : table_sorted rules)
    (hash : List Int) (src dst : List Int) (q0 : Nat) (r0 : grule)
    (hq0 : rules[q0]? = some r0) (hacc : font_rulematches fn r0 src dst = some true)
    (j0 : Nat) (hj3 : j0 < 3) (hj0 : hash.getD j0 0 = r0.hash) (l : Nat) (hl : hash_at rules l = r0.hash) :
    ∀ (fuel : Nat) (idx : List Int),
      (∃ k : Nat, idx.getD j0 (-1) = (k : Int) ∧ l ≤ k ∧ k ≤ q0) →
        font_findrule_loop fn rules hash src dst fuel idx ≠ some none := by
  obtain ⟨hq0n, hq0e⟩ := List.getElem?_eq_some_iff.mp hq0
  have hh0 : hash_at rules q0 = r0.hash := by
    unfold hash_at; rw [hq0]
  intro fuel
  induction fuel with
  | zero => intro idx _; simp [font_findrule_loop]
  | succ fuel ih =>
    intro idx hinv
    obtain ⟨k, hk, hlk, hkq⟩ := hinv
    have hhk : hash_at rules k = r0.hash := by
      have h1 := sorted_hash_at_le rules hs l k hlk (by omega)
      have h2 := sorted_hash_at_le rules hs k q0 hkq hq0n
      omega
    rcases findrule_loop_step fn rules hash src dst fuel idx with
      ⟨_, hall, _⟩ | ⟨i, r1, hi, hok, hr, _, hstep⟩
    · exfalso
      have hok : cur_ok rules hash idx j0 = true := by
        rw [cur_ok_iff, hk, hj0]
        refine ⟨by omega, by omega, ?_⟩
        rw [Int.toNat_ofNat, hhk]
      rw [hall j0 hj3] at hok
      exact Bool.false_ne_true hok
    · rw [hstep]
      cases hm : font_rulematches fn r1 src dst with
      | none => simp
      | some b =>
        cases b with
        | true => simp
        | false =>
          have hlen := cur_ok_lt_length rules hash idx i hok
          refine ih _ ?_
          by_cases hij : i = j0
          · subst hij
            rw [getD_set_self idx i _ hlen, hk]
            refine ⟨k + 1, by push_cast; rfl, by omega, ?_⟩
            by_contra hc
            have hke : k = q0 := by omega
            rw [hk, Int.toNat_ofNat, hke, hq0] at hr
            simp only [Option.some.injEq] at hr
            rw [hr, hm] at hacc
            simp at hacc
          · rw [getD_set_ne idx i j0 _ hij]
            exact ⟨k, hk, hlk, hkq⟩

/-- On a sorted table an accepted rule whose hash is the one `grule_hash` gives
keeps `font_findrule` from returning `NULL`. -/
theorem findrule_complete (fn : font) (rules : List grule) (hs : table_sorted rules)
    (src dst : List Int) (r0 : grule) (hmem : r0 ∈ rules) (hh : r0.hash = grule_hash r0)
    (hacc : font_rulematches fn r0 src dst = some true) :
    font_findrule fn rules src dst ≠ some none := by
  obtain ⟨j0, hj3, hjlen, hkey⟩ := accepted_probed fn r0 src dst hh hacc
  obtain ⟨q0, hq0⟩ := List.getElem?_of_mem hmem
  obtain ⟨l, hfind, hlq, hhl, _⟩ := grule_find_found rules hs r0.hash q0 r0 hq0 rfl
  refine findrule_loop_finds fn rules hs _ src dst q0 r0 hq0 hacc j0 hj3 hkey.symm l hhl _ _
    ⟨l, ?_, le_refl _, hlq⟩
  rw [← hfind, hkey]
  unfold probe_cursors
  interval_cases j0
  · rfl
  · simp only [List.getD_cons_succ, List.getD_cons_zero]
    rw [if_pos hjlen]
  · simp only [List.getD_cons_succ, List.getD_cons_zero]
    rw [if_pos hjlen]

/-- C16: the hash index loses no matching rule.  A rule that carries the hash
`grule_hash` gives it and that `font_rulematches` accepts on a slice has one of
the keys `font_findrule` looks up for that slice: `GHASH(-1,-1)`, or
`GHASH(src[0],-1)` with `slen ≥ 1`, or `GHASH(src[0],src[1])` with `slen ≥ 2`.  So on a table sorted by `grulecmp`, whose
rules carry their hashes and on which the matcher is defined, `font_findrule`
returns a result, the result is `NULL` exactly when no rule of the table is
accepted, and a rule it returns is a rule of the table that is accepted. -/
theorem hash_index_complete (fn : font) (rules : List grule) (src dst : List Int)
    (hs : table_sorted rules) (hh : ∀ r, r ∈ rules → r.hash = grule_hash r)
    (hdef : ∀ r, r ∈ rules → font_rulematches fn r src dst ≠ none) :
    (∀ r : grule, r.hash = grule_hash r → font_rulematches fn r src dst = some true →
      r.hash = GHASH (-1) (-1) ∨ (1 ≤ src.length ∧ r.hash = GHASH (src.getD 0 0) (-1)) ∨
        (2 ≤ src.length ∧ r.hash = GHASH (src.getD 0 0) (src.getD 1 0))) ∧
    font_findrule fn rules src dst ≠ none ∧
    (font_findrule fn rules src dst = some none ↔
      ∀ r, r ∈ rules → font_rulematches fn r src dst ≠ some true) ∧
    (∀ r, font_findrule fn rules src dst = some (some r) →
      r ∈ rules ∧ font_rulematches fn r src dst = some true) := by
  refine ⟨?_, findrule_total fn rules src dst hdef, ⟨?_, ?_⟩, ?_⟩
  · intro r hr hacc
    obtain ⟨j, hj3, hjlen, hkey⟩ := accepted_probed fn r src dst hr hacc
    interval_cases j
    · left; exact hkey
    · right; left; exact ⟨hjlen, hkey⟩
    · right; right; exact ⟨hjlen, hkey⟩
  · intro hnone r hmem hacc
    exact findrule_complete fn rules hs src dst r hmem (hh r hmem) hacc hnone
  · intro hno
    apply findrule_none_of_rejected
    intro r hmem
    cases hm : font_rulematches fn r src dst with
    | none => exact absurd hm (hdef r hmem)
    | some b =>
      cases b with
      | true => exact absurd hm (hno r hmem)
      | false => rfl
  · intro r h
    exact findrule_sound fn rules src dst r h

theorem hash_index_complete_witness :
    table_sorted prio_font.gsub ∧
    font_findrule prio_font prio_font.gsub [0, 1] [] ≠ none ∧
    (font_findrule prio_font prio_font.gsub [0, 1] [] = some none ↔
      ∀ r, r ∈ prio_font.gsub → font_rulematches prio_font r [0, 1] [] ≠ some true) :=
  ⟨by decide,
   (hash_index_complete prio_font prio_font.gsub [0, 1] [] (by decide) (by decide)
      (by decide)).2.1,
   (hash_index_complete prio_font prio_font.gsub [0, 1] [] (by decide) (by decide)
      (by decide)).2.2.1⟩

/-! ## C17: the cursor of the substitution loop -/

theorem apply_rule_fst (pats : List gpat) :
    ∀ (i : Nat) (dst : List Int),
      (apply_rule pats i dst).1 = i + pats.countP (fun p => decide (p.flg = GF_PAT)) := by
  induction pats with
  | nil => intro i dst; rfl
  | cons p t ih =>
    intro i dst
    have hstep : apply_rule (p :: t) i dst =
        apply_rule t (apply_pat (i, dst) p).1 (apply_pat (i, dst) p).2 := rfl
    rw [hstep, ih, List.countP_cons]
    unfold apply_pat
    by_cases hp : p.flg = GF_PAT
    · simp [hp]; omega
    · simp [hp]

/-- When every substitution rule has an element with flag `GF_PAT` and the
matcher is defined, the substitution loop returns within `nsrc - i` rounds. -/
theorem subst_loop_terminates (fn : font) (src : List Int)
    (hdef : ∀ (i : Nat) (dst : List Int) (r : grule), r ∈ fn.gsub →
      font_rulematches fn r (src.drop i) dst ≠ none)
    (hpat : ∀ r, r ∈ fn.gsub → ∃ p, p ∈ r.pats ∧ p.flg = GF_PAT) :
    ∀ (fuel i : Nat) (dst : List Int) (dmap : cells), src.length - i ≤ fuel →
      ∃ out, subst_loop fn src fuel i dst dmap = some out := by
  intro fuel
  induction fuel with
  | zero =>
    intro i dst dmap h
    exact ⟨_, subst_loop_done fn src 0 i dst dmap (by omega)⟩
  | succ fuel ih =>
    intro i dst dmap h
    by_cases hi : src.length ≤ i
    · exact ⟨_, subst_loop_done fn src _ i dst dmap hi⟩
    · have hlt : i < src.length := by omega
      cases hf : font_findrule fn fn.gsub (src.drop i) dst with
      | none => exact absurd hf (findrule_total fn fn.gsub _ dst (hdef i dst))
      | some res =>
        cases res with
        | none =>
          rw [subst_loop_pass fn src fuel i dst dmap hlt hf]
          exact ih _ _ _ (by omega)
        | some rule =>
          rw [subst_loop_rule fn src fuel i dst dmap rule hlt hf]
          obtain ⟨hmem, _⟩ := findrule_sound fn fn.gsub _ dst rule hf
          obtain ⟨p, hp, hflg⟩ := hpat rule hmem
          have hpos : 0 < rule.pats.countP (fun p => decide (p.flg = GF_PAT)) :=
            List.countP_pos_iff.mpr ⟨p, hp, by simpa using hflg⟩
          refine ih _ _ _ ?_
          rw [apply_rule_fst]
          omega

theorem ins_rule_fires (dst : List Int) :
    font_findrule ins_font ins_font.gsub [0] dst = some (some ins_rule) := by
  have hacc : font_rulematches ins_font ins_rule [0] dst = some true := by
    have := rulematches_segs ins_font ins_rule [seg.rep (rep_elem 1)] [0] dst (by decide) rfl
      (by
        intro s hs
        simp only [List.mem_singleton] at hs
        subst hs
        left
        rfl)
    rw [this]
    rfl
  exact findrule_single_accept ins_font ins_rule [0] dst hacc ⟨0, by decide, by decide, by decide⟩

theorem ins_loop_stuck :
    ∀ (fuel : Nat) (dst : List Int) (dmap : cells),
      subst_loop ins_font [0] fuel 0 dst dmap = none := by
  intro fuel
  induction fuel with
  | zero => intro dst dmap; rfl
  | succ fuel ih =>
    intro dst dmap
    rw [subst_loop_rule ins_font [0] fuel 0 dst dmap ins_rule (by decide) (ins_rule_fires dst)]
    have h1 : (apply_rule ins_rule.pats 0 dst).1 = 0 := by
      rw [apply_rule_fst]; rfl
    rw [h1]
    exact ih _ _

/-- C17: the substitution pass need not terminate.  The font `ins_font` has a
sorted one-rule table with the rule `+g1`, which has no pattern element.  On
the run `[g0]` the rule fires at cursor 0 whatever the output holds, the cursor
after the round is 0 again while the output has grown by one glyph, and the
substitution loop, hence `font_layout`, returns within no number of rounds. -/
theorem insertion_rule_never_ends :
    table_sorted ins_font.gsub ∧ ins_rule.hash = grule_hash ins_rule ∧
    (∀ dst : List Int,
      font_findrule ins_font ins_font.gsub [0] dst = some (some ins_rule) ∧
      (apply_rule ins_rule.pats 0 dst).1 = 0 ∧
      (apply_rule ins_rule.pats 0 dst).2 = dst ++ [1]) ∧
    (∀ (fuel : Nat) (dst : List Int) (dmap : cells),
      subst_loop ins_font [0] fuel 0 dst dmap = none) ∧
    (∀ fuel : Nat, font_layout fuel ins_font [gptr.glyph 0] = none) := by
  refine ⟨by decide, by decide, ?_, ins_loop_stuck, ?_⟩
  · intro dst
    exact ⟨ins_rule_fires dst, rfl, rfl⟩
  · intro fuel
    have hm : [gptr.glyph 0].mapM font_idx = some [0] := by decide
    unfold font_layout
    rw [hm]
    simp only [ins_loop_stuck]

/-! ## C18: the input a rule consumes -/

theorem match_base_sidx_fst (pats : List gpat) (src : List Int) :
    ∀ (fuel j sidx : Nat),
      (match_base_sidx pats src fuel j sidx).map Prod.fst = match_base pats src fuel j sidx := by
  intro fuel
  induction fuel with
  | zero => intro j sidx; rfl
  | succ fuel ih =>
    intro j sidx
    rw [match_base_sidx, match_base]
    cases hp : pats[j]? with
    | none => rfl
    | some p =>
      simp only []
      by_cases h1 : p.flg &&& GF_REP ≠ 0
      · rw [if_pos h1, if_pos h1]; exact ih _ _
      · rw [if_neg h1, if_neg h1]
        by_cases h2 : src[sidx]? = some p.g
        · rw [if_pos h2, if_pos h2]
          cases skip_alt pats j with
          | none => rfl
          | some j1 => exact ih _ _
        · rw [if_neg h2, if_neg h2]
          by_cases h3 : p.flg &&& GF_ALT = 0
          · rw [if_pos h3, if_pos h3]; rfl
          · rw [if_neg h3, if_neg h3]; exact ih _ _

/-- An accepting run of the base loop over pieces consumes one glyph for every
slot. -/
theorem match_base_sidx_segs (src : List Int) (segs : List seg)
    (hok : ∀ s, s ∈ segs → seg_ok s) :
    ∀ (pre : List gpat) (fuel sidx k : Nat),
      match_base_sidx (pre ++ flat segs) src fuel pre.length sidx = some (true, k) →
        k = sidx + (slot_glyphs segs).length := by
  induction segs with
  | nil =>
    intro pre fuel sidx k h
    cases fuel with
    | zero => simp [match_base_sidx] at h
    | succ fuel =>
      simp only [flat] at h
      rw [List.append_nil, match_base_sidx, List.getElem?_eq_none (le_refl _)] at h
      simp only [Option.some.injEq, Prod.mk.injEq] at h
      simp [slot_glyphs, h.2]
  | cons s segs ih =>
    have ih1 := ih (fun t ht => hok t (List.mem_cons_of_mem s ht))
    have hs := hok s (List.mem_cons_self s segs)
    cases s with
    | rep p =>
      intro pre fuel sidx k h
      cases fuel with
      | zero => simp [match_base_sidx] at h
      | succ fuel =>
        have hrep : p.flg &&& GF_REP ≠ 0 := by
          rcases hs with h | h <;> rw [h] <;> decide
        have hcat : pre ++ flat (seg.rep p :: segs) = (pre ++ [p]) ++ flat segs := by
          simp [flat, seg.elems]
        have hget : (pre ++ flat (seg.rep p :: segs))[pre.length]? = some p := by
          simp only [flat, seg.elems, List.singleton_append]
          exact getElem?_mid pre p (flat segs)
        rw [match_base_sidx, hget] at h
        simp only [] at h
        rw [if_pos hrep, hcat] at h
        have hl : pre.length + 1 = (pre ++ [p]).length := by simp
        rw [hl] at h
        have := ih1 _ _ _ _ h
        simpa [slot_glyphs] using this
    | slot alts last =>
      obtain ⟨halts, hlast⟩ := hs
      have hlastalt : last.flg &&& GF_ALT = 0 := by rw [hlast]; decide
      have hlastrep : ¬ (last.flg &&& GF_REP ≠ 0) := by rw [hlast]; decide
      have key : ∀ (as : List gpat), (∀ a, a ∈ as → a.flg = GF_PAT ||| GF_ALT) →
          ∀ (pre : List gpat) (fuel sidx k : Nat),
            match_base_sidx (pre ++ (as ++ last :: flat segs)) src fuel pre.length sidx =
              some (true, k) → k = sidx + 1 + (slot_glyphs segs).length := by
        intro as
        induction as with
        | nil =>
          intro _ pre fuel sidx k h
          cases fuel with
          | zero => simp [match_base_sidx] at h
          | succ fuel =>
            rw [List.nil_append, match_base_sidx, getElem?_mid] at h
            simp only [] at h
            rw [if_neg hlastrep] at h
            by_cases hm : src[sidx]? = some last.g
            · rw [if_pos hm, skip_alt_here pre last (flat segs) hlastalt] at h
              simp only [] at h
              have hcat : pre ++ last :: flat segs = (pre ++ [last]) ++ flat segs := by simp
              have hl : pre.length + 1 = (pre ++ [last]).length := by simp
              rw [hcat, hl] at h
              exact ih1 _ _ _ _ h
            · rw [if_neg hm, if_pos hlastalt] at h
              simp at h
        | cons a as iha =>
          intro hflags pre fuel sidx k h
          cases fuel with
          | zero => simp [match_base_sidx] at h
          | succ fuel =>
            have hflags1 : ∀ b, b ∈ as → b.flg = GF_PAT ||| GF_ALT :=
              fun b hb => hflags b (List.mem_cons_of_mem a hb)
            have ha := hflags a (List.mem_cons_self a as)
            have haalt : ¬ (a.flg &&& GF_ALT = 0) := by rw [ha]; decide
            have harep : ¬ (a.flg &&& GF_REP ≠ 0) := by rw [ha]; decide
            rw [List.cons_append, match_base_sidx, getElem?_mid] at h
            simp only [] at h
            rw [if_neg harep] at h
            by_cases hm : src[sidx]? = some a.g
            · rw [if_pos hm] at h
              have hsk := skip_alt_run pre (a :: as) last (flat segs)
                (fun b hb => by rw [hflags b hb]; decide) hlastalt
              rw [List.cons_append] at hsk
              rw [hsk] at h
              simp only [] at h
              have hcat : pre ++ a :: (as ++ last :: flat segs) =
                  (pre ++ (a :: as ++ [last])) ++ flat segs := by simp
              have hl : pre.length + (a :: as).length + 1 =
                  (pre ++ (a :: as ++ [last])).length := by
                simp; omega
              rw [hcat, hl] at h
              exact ih1 _ _ _ _ h
            · rw [if_neg hm, if_neg haalt] at h
              have hcat : pre ++ a :: (as ++ last :: flat segs) =
                  (pre ++ [a]) ++ (as ++ last :: flat segs) := by simp
              have hl : pre.length + 1 = (pre ++ [a]).length := by simp
              rw [hcat, hl] at h
              exact iha hflags1 _ _ _ _ h
      intro pre fuel sidx k h
      have hflat : flat (seg.slot alts last :: segs) = alts ++ last :: flat segs := by
        simp [flat, seg.elems]
      rw [hflat] at h
      have := key alts halts pre fuel sidx k h
      simp only [slot_glyphs, List.length_cons]
      omega

theorem countP_pat_flat (segs : List seg) (hok : ∀ s, s ∈ segs → seg_ok s) :
    (flat segs).countP (fun p => decide (p.flg = GF_PAT)) = (slot_glyphs segs).length := by
  induction segs with
  | nil => rfl
  | cons s segs ih =>
    have ih1 := ih (fun t ht => hok t (List.mem_cons_of_mem s ht))
    have hs := hok s (List.mem_cons_self s segs)
    cases s with
    | rep p =>
      have hp : p.flg ≠ GF_PAT := by
        rcases hs with h | h <;> rw [h] <;> decide
      simp only [flat, seg.elems, List.singleton_append, slot_glyphs, List.countP_cons, ih1]
      simp [hp]
    | slot alts last =>
      obtain ⟨halts, hlast⟩ := hs
      have h0 : alts.countP (fun p => decide (p.flg = GF_PAT)) = 0 := by
        rw [List.countP_eq_zero]
        intro a ha
        rw [halts a ha]
        decide
      simp only [flat, seg.elems, slot_glyphs, List.countP_append, List.countP_cons,
        List.countP_nil, ih1, h0, List.length_cons]
      simp [hlast]
      omega

theorem con_run_ctx (ctx : List gpat) (segs : List seg)
    (hctx : ∀ c, c ∈ ctx → c.flg = GF_CON ∨ c.flg = GF_CON ||| GF_ALT)
    (hok : ∀ s, s ∈ segs → seg_ok s) : con_run (ctx ++ flat segs) = ctx := by
  unfold con_run
  have hall : ∀ c, c ∈ ctx → (fun p : gpat => decide (p.flg &&& GF_CON ≠ 0)) c = true := by
    intro c hc
    rcases hctx c hc with h | h <;> simp only [h] <;> decide
  rw [List.takeWhile_append_of_pos hall]
  cases hf : flat segs with
  | nil => simp
  | cons p rest =>
    have := flat_head_no_con segs hok p rest hf
    rw [List.takeWhile_cons]
    simp [this]

theorem countP_pat_ctx (ctx : List gpat)
    (hctx : ∀ c, c ∈ ctx → c.flg = GF_CON ∨ c.flg = GF_CON ||| GF_ALT) :
    ctx.countP (fun p => decide (p.flg = GF_PAT)) = 0 := by
  rw [List.countP_eq_zero]
  intro c hc
  rcases hctx c hc with h | h <;> rw [h] <;> decide

/-- C18: matcher and pipeline agree on the input a rule consumes.  A rule is
well formed when its elements are context elements (`GF_CON`, with `GF_ALT` on
an alternative) followed by replacement elements and slots (alternatives
`GF_PAT | GF_ALT` closed by a `GF_PAT` element).  If `font_rulematches`
accepts such a rule on a slice, the base loop ends with `sidx` equal to the
number of elements whose flag is exactly `GF_PAT`, that number is at most
`slen`, the substitution loop moves its cursor by that number, so that the
cursor does not pass the end of a run the slice is the rest of, and each of the
glyphs passed over is the glyph of an alternative of the slot of its place. -/
theorem consumption_agrees (fn : font) (r : grule) (ctx : List gpat) (segs : List seg)
    (src dst : List Int) (hpats : r.pats = ctx ++ flat segs)
    (hctx : ∀ c, c ∈ ctx → c.flg = GF_CON ∨ c.flg = GF_CON ||| GF_ALT)
    (hok : ∀ s, s ∈ segs → seg_ok s)
    (hacc : font_rulematches fn r src dst = some true) :
    consumed r src = some (npat r) ∧ npat r ≤ src.length ∧
    (∀ (i : Nat) (out : List Int), (apply_rule r.pats i out).1 = i + npat r) ∧
    (∀ (run : List Int) (i : Nat) (out : List Int), src = run.drop i → i ≤ run.length →
      (apply_rule r.pats i out).1 ≤ run.length) ∧
    (∀ k, k < npat r → ∃ s g, (slot_glyphs segs)[k]? = some s ∧ src[k]? = some g ∧ g ∈ s) := by
  have hcon := con_run_ctx ctx segs hctx hok
  have hbase := rulematches_base fn r src dst hacc
  rw [hpats, hcon] at hbase
  have hn : npat r = (slot_glyphs segs).length := by
    unfold npat
    rw [hpats, List.countP_append, countP_pat_ctx ctx hctx, countP_pat_flat segs hok]
    omega
  have hacc2 := match_base_segs src segs hok ctx ((ctx ++ flat segs).length + 1) 0
    (by rw [List.length_append]; omega)
  rw [hbase, List.drop_zero] at hacc2
  have hsl : slots_accept (slot_glyphs segs) src = true := by
    simpa using hacc2.symm
  obtain ⟨hlen, hall⟩ := (slots_accept_iff (slot_glyphs segs) src).mp hsl
  have hfst := match_base_sidx_fst (ctx ++ flat segs) src ((ctx ++ flat segs).length + 1)
    ctx.length 0
  rw [hbase] at hfst
  have hmove : ∀ (i : Nat) (out : List Int), (apply_rule r.pats i out).1 = i + npat r := by
    intro i out
    rw [apply_rule_fst]
    rfl
  refine ⟨?_, by omega, hmove, ?_, ?_⟩
  · unfold consumed
    rw [hpats, hcon]
    cases hres : match_base_sidx (ctx ++ flat segs) src ((ctx ++ flat segs).length + 1)
        ctx.length 0 with
    | none => rw [hres] at hfst; simp at hfst
    | some res =>
      obtain ⟨b, k⟩ := res
      rw [hres] at hfst
      simp only [Option.map_some', Option.some.injEq] at hfst
      subst hfst
      have := match_base_sidx_segs src segs hok ctx _ 0 k hres
      simp only [Option.map_some', Option.some.injEq]
      omega
  · intro run i out hrun hi
    rw [hmove]
    have : src.length = run.length - i := by rw [hrun, List.length_drop]
    omega
  · intro k hk
    have hk2 : k < (slot_glyphs segs).length := by omega
    obtain ⟨g, hg, hsrc⟩ := hall k hk2
    exact ⟨(slot_glyphs segs)[k], g, List.getElem?_eq_getElem hk2, hsrc, hg⟩

theorem consumption_agrees_witness :
    consumed late_rule [0, 1, 5] = some (npat late_rule) ∧ npat late_rule ≤ 3 :=
  ⟨(consumption_agrees prio_font late_rule []
      [seg.slot [] (pat_elem 0), seg.slot [] (pat_elem 1), seg.rep (rep_elem 3)] [0, 1, 5] []
      rfl (by simp) (by simp [seg_ok, pat_elem, rep_elem]) (by decide)).1,
   (consumption_agrees prio_font late_rule []
      [seg.slot [] (pat_elem 0), seg.slot [] (pat_elem 1), seg.rep (rep_elem 3)] [0, 1, 5] []
      rfl (by simp) (by simp [seg_ok, pat_elem, rep_elem]) (by decide)).2.1⟩

/-! ## C19: where the positioning pass writes -/

/-- C19: a positioning write can fall outside the output and miss the matched
glyph.  The font `kern_font` has no substitution rules and the one positioning
rule `kern g0 g1 5`.  On the run `[g0, g1, g0, g1]` the output has `ndst = 4`
glyphs and the rule is matched at the positions 0 and 2.  For the match at
position 2 the pass stores the values of the two elements in the cells 4 and 5
of `x`, `y`, `xadv` and `yadv`, which lie past the `ndst` cells of the output,
and the cell `xadv[2]` of the matched glyph keeps its zero. -/
theorem kern_written_past_output :
    font_findrule kern_font kern_font.gpos [0, 1] [0, 1] = some (some kern_rule) ∧
    font_layout 4 kern_font [gptr.glyph 0, gptr.glyph 1, gptr.glyph 0, gptr.glyph 1] =
      some (layout.mk 4 [gptr.glyph 0, gptr.glyph 1, gptr.glyph 0, gptr.glyph 1]
        [some 0, some 1, some 2, some 3]
        [some 0, some 0, some 0, some 0, some 0, some 0]
        [some 0, some 0, some 0, some 0, some 0, some 0]
        [some 5, some 0, some 0, some 0, some 5, some 0]
        [some 0, some 0, some 0, some 0, some 0, some 0]) := by
  decide

/-! ## C20: a rule that names an unknown glyph -/

theorem store_elem_length (pats : List gpat) (i : Nat) (k : Int) (c : Char) :
    (store_elem pats i k c).length = pats.length := by
  unfold store_elem
  split_ifs <;> simp

theorem read_pats_length (gdict : List String) (n : Nat) :
    ∀ (toks : List String) (i : Nat) (pats : List gpat),
      (read_pats gdict n toks i pats).2.length = pats.length := by
  intro toks
  induction toks with
  | nil =>
    intro i pats
    unfold read_pats
    split_ifs <;> rfl
  | cons tok rest ih =>
    intro i pats
    rw [read_pats]
    split_ifs
    · rfl
    · cases tok.data with
      | nil => rfl
      | cons c id =>
        simp only []
        by_cases hc : 128 ≤ c.toNat
        · rw [if_pos hc]
        · rw [if_neg hc]
          cases font_glyph gdict (String.mk id) with
          | null => rfl
          | other => rfl
          | glyph k =>
            simp only []
            rw [ih, store_elem_length]

/-- Whatever its tokens are, `font_readgsub` on a table that is not full leaves
one more rule in the table, with `n` elements, for a count `n` that the field
`rule->len` holds. -/
theorem readgsub_registers (gdict : List String) (NGRULES : Nat) (fn : font) (feat : String)
    (n : Int) (toks : List String) (hcap : fn.gsub.length < NGRULES)
    (hn0 : 0 ≤ n) (hn1 : n ≤ 32767) :
    ∃ res, font_readgsub gdict NGRULES fn feat n toks = some res ∧
      res.2.gsub.length = fn.gsub.length + 1 ∧
      ∃ r, res.2.gsub[fn.gsub.length]? = some r ∧ (r.pats.length : Int) = n := by
  have hfit : ¬ rule_len n ≠ n := by
    rw [rule_len_fits n hn0 hn1]
    exact fun h => h rfl
  unfold font_readgsub font_gsub
  rw [if_neg (by omega), if_neg (by omega), if_neg hfit]
  simp only [List.getElem?_concat_length]
  refine ⟨_, rfl, by simp, ?_⟩
  refine ⟨grule.mk (read_pats gdict n.toNat toks 0 (font_gpat n.toNat)).2
    (font_findfeat fn feat true).1.toNat 0 0, ?_, ?_⟩
  · rw [List.getElem?_set_self (by simp)]
  · simp only [read_pats_length, font_gpat, List.length_replicate]
    omega

/-- C20: a rule that names an unknown glyph stays in the table.  On the font
`ab_font` (glyphs `a` and `b`, no rules) the specification `gsub liga 2 -a +zzz`
names the unknown glyph `zzz`.  The call `font_readgsub` returns 0 and leaves
one rule more in the substitution table; the rule has two elements, the pattern
`a` and an element with glyph 0 and flag 0.  After the build step and with the
feature enabled, `font_findrule` returns that rule on the slice `[a, a]`, and
`font_layout` of the run `[a, a]` gives the single glyph `a`. -/
theorem unknown_glyph_rule_kept :
    font_readgsub ab_gdict 4 ab_font "liga" 2 ["-a", "+zzz"] = some bad_read ∧
    bad_read.1 = 0 ∧ bad_read.2.gsub.length = ab_font.gsub.length + 1 ∧
    bad_read.2.gsub = [grule.mk [gpat.mk 0 GF_PAT 0 0 0 0, gpat.mk 0 0 0 0 0 0] 0 0 0] ∧
    bad_font.gsub = [grule.mk [gpat.mk 0 GF_PAT 0 0 0 0, gpat.mk 0 0 0 0 0 0] 0 0 1] ∧
    font_findrule bad_font bad_font.gsub [0, 0] [] =
      some (some (grule.mk [gpat.mk 0 GF_PAT 0 0 0 0, gpat.mk 0 0 0 0 0 0] 0 0 1)) ∧
    font_layout 2 bad_font [gptr.glyph 0, gptr.glyph 0] =
      some (layout.mk 1 [gptr.glyph 0] [some 1] [some 0] [some 0] [some 0] [some 0]) := by
  decide

end Neatroff
